import Mathlib

/-!
# Verification of the `studying` repository's timestamp-shifting transform

This file gives a shallow embedding, in Lean 4, of the Python scripts in the
`studying` repository and proves the specification's claims about them.

* `shift_ics.py` — the ICS timestamp shifter: scan a text for tokens matching
  the regex `\d{8}T\d{6}` (modelled over the ASCII digits, the alphabet of the
  fixed `YYYYMMDDTHHMMSS` format), parse each with the proleptic Gregorian
  calendar used by Python's `datetime` (years 1–9999), compute one delta from
  the earliest timestamp to the target anchor, and substitute every token by
  its shifted re-encoding.
* `notebooks/delete_today_events.py` — bulk deletion of today's events with a
  `try/except` around each deletion.
* `todays_studying.py` — scheduled and completed study-hour totals.

Dates are represented as days since 0001-01-01 and date-times as seconds since
0001-01-01T00:00:00, exactly the proleptic Gregorian ordinal arithmetic that
Python's `datetime`/`timedelta` implement.
-/

/-! ## Calendar arithmetic (the fragment of Python `datetime` the scripts use) -/

/-- Gregorian leap-year rule, as in Python's `calendar.isleap` / `datetime`. -/
def isLeap (y : Nat) : Bool :=
  decide ((y % 4 = 0 ∧ ¬ y % 100 = 0) ∨ y % 400 = 0)

/-- Length of month `m` (1–12) in a year of the given leapness. -/
def monthLenB (leap : Bool) (m : Nat) : Nat :=
  if m = 2 then (if leap then 29 else 28)
  else if m = 4 ∨ m = 6 ∨ m = 9 ∨ m = 11 then 30 else 31

/-- Days strictly before month `m` (1–12) in a year of the given leapness. -/
def dBM (leap : Bool) (m : Nat) : Nat :=
  (match m with
   | 1 => 0 | 2 => 31 | 3 => 59 | 4 => 90 | 5 => 120 | 6 => 151
   | 7 => 181 | 8 => 212 | 9 => 243 | 10 => 273 | 11 => 304 | _ => 334)
  + (if 3 ≤ m ∧ leap = true then 1 else 0)

/-- Number of leap years among years `1 .. n`. -/
def leapsBefore (n : Nat) : Nat := n / 4 - n / 100 + n / 400

/-- Days strictly before year `y` counted from 0001-01-01 (day 0);
`daysBeforeYear y = date(y,1,1).toordinal() - 1` in Python. -/
def daysBeforeYear (y : Nat) : Nat := 365 * (y - 1) + leapsBefore (y - 1)

/-- Day number (days since 0001-01-01) of the date `y-m-d`;
equals Python's `date(y,m,d).toordinal() - 1`. -/
def daysOfDate (y m d : Nat) : Nat :=
  daysBeforeYear y + dBM (isLeap y) m + (d - 1)

/-- Seconds since 0001-01-01T00:00:00 of a date-time. -/
def secOfDateTime (y mo d h mi s : Nat) : Nat :=
  86400 * daysOfDate y mo d + 3600 * h + 60 * mi + s

/-- Largest representable day number: `date(9999,12,31).toordinal() - 1`. -/
def maxDay : Nat := 3652058

/-- Largest representable second: `9999-12-31T23:59:59`. -/
def maxSec : Nat := 86400 * 3652059 - 1

/-- Inverse of `daysBeforeYear` within one 400-year cycle: from an offset
`r < 146097` recover the year-of-cycle (0-based) and the day-of-year
(0-based).  The two `= 4` corrections pick out December 31 of a leap year,
as in CPython's `_ord2ymd`. -/
def yearDayOfCycle (r : Nat) : Nat × Nat :=
  let n100 := r / 36524
  let r1 := r % 36524
  let n4 := r1 / 1461
  let r2 := r1 % 1461
  let n1 := r2 / 365
  let k := r2 % 365
  if n1 = 4 ∨ n100 = 4 then (100 * n100 + 4 * n4 + n1 - 1, 365)
  else (100 * n100 + 4 * n4 + n1, k)

/-- From a 0-based day-of-year recover the month and day-of-month. -/
def monthDayOfDoy (leap : Bool) (k : Nat) : Nat × Nat :=
  if k < dBM leap 2 then (1, k + 1)
  else if k < dBM leap 3 then (2, k - dBM leap 2 + 1)
  else if k < dBM leap 4 then (3, k - dBM leap 3 + 1)
  else if k < dBM leap 5 then (4, k - dBM leap 4 + 1)
  else if k < dBM leap 6 then (5, k - dBM leap 5 + 1)
  else if k < dBM leap 7 then (6, k - dBM leap 6 + 1)
  else if k < dBM leap 8 then (7, k - dBM leap 7 + 1)
  else if k < dBM leap 9 then (8, k - dBM leap 8 + 1)
  else if k < dBM leap 10 then (9, k - dBM leap 9 + 1)
  else if k < dBM leap 11 then (10, k - dBM leap 10 + 1)
  else if k < dBM leap 12 then (11, k - dBM leap 11 + 1)
  else (12, k - dBM leap 12 + 1)

/-- Inverse of `daysOfDate`: from a day number recover `(y, m, d)`;
equals Python's `date.fromordinal(n + 1)`. -/
def dateOfDays (n : Nat) : Nat × Nat × Nat :=
  let a := n / 146097
  let r := n % 146097
  let p := yearDayOfCycle r
  let y := 400 * a + p.1 + 1
  let md := monthDayOfDoy (isLeap y) p.2
  (y, md.1, md.2)

/-! ## Calendar round-trip lemmas -/

/-- Days strictly before year-of-cycle `yoe` (0-based) inside a 400-year cycle. -/
def cycB (yoe : Nat) : Nat := 365 * yoe + yoe / 4 - yoe / 100 + yoe / 400

theorem isLeap_cycle (a yoe : Nat) : isLeap (400 * a + yoe + 1) = isLeap (yoe + 1) := by
  rw [isLeap, isLeap, decide_eq_decide]
  omega

theorem daysBeforeYear_split (a yoe : Nat) (h : yoe < 400) :
    daysBeforeYear (400 * a + yoe + 1) = 146097 * a + cycB yoe := by
  rw [daysBeforeYear, leapsBefore, cycB]
  omega

theorem yearDayOfCycle_eq (r : Nat) :
    yearDayOfCycle r =
      if r % 36524 % 1461 / 365 = 4 ∨ r / 36524 = 4
      then (100 * (r / 36524) + 4 * (r % 36524 / 1461) + r % 36524 % 1461 / 365 - 1, 365)
      else (100 * (r / 36524) + 4 * (r % 36524 / 1461) + r % 36524 % 1461 / 365,
            r % 36524 % 1461 % 365) := rfl

theorem cycB_decomp (yoe : Nat) (h : yoe < 400) :
    cycB yoe = 36524 * (yoe / 100) + 1461 * (yoe % 100 / 4) + 365 * (yoe % 100 % 4) := by
  have hA : yoe / 4 = 25 * (yoe / 100) + yoe % 100 / 4 := by omega
  rw [cycB]; omega

theorem isLeap_iff_decomp (yoe : Nat) (h : yoe < 400) :
    isLeap (yoe + 1) = true ↔ (yoe % 100 % 4 = 3 ∧ (yoe % 100 / 4 ≠ 24 ∨ yoe / 100 = 3)) := by
  rw [isLeap, decide_eq_true_eq]; omega

theorem cycB_add_len_le (yoe : Nat) (h : yoe < 400) :
    cycB yoe + (if isLeap (yoe + 1) then 366 else 365) ≤ 146097 := by
  have hB := cycB_decomp yoe h
  by_cases hl : isLeap (yoe + 1) = true
  · rw [if_pos hl]
    have := (isLeap_iff_decomp yoe h).mp hl
    omega
  · rw [if_neg hl]
    omega

theorem yearDayOfCycle_cycB (yoe k : Nat) (h1 : yoe < 400)
    (h2 : k < if isLeap (yoe + 1) then 366 else 365) :
    yearDayOfCycle (cycB yoe + k) = (yoe, k) := by
  have hB := cycB_decomp yoe h1
  have hc : yoe / 100 ≤ 3 := by omega
  have hq : yoe % 100 / 4 ≤ 24 := by omega
  have hs : yoe % 100 % 4 ≤ 3 := by omega
  have hyoe : yoe = 100 * (yoe / 100) + 4 * (yoe % 100 / 4) + yoe % 100 % 4 := by omega
  by_cases hl : isLeap (yoe + 1) = true
  · rw [if_pos hl] at h2
    have hlc := (isLeap_iff_decomp yoe h1).mp hl
    by_cases hk365 : k = 365
    · -- the December 31 case of a leap year: the cascade needs the correction
      subst hk365
      by_cases hq24 : yoe % 100 / 4 = 24
      · -- only possible when yoe = 399 (year 400)
        have hy399 : yoe = 399 := by omega
        subst hy399
        decide
      · rw [yearDayOfCycle_eq]
        set m := cycB yoe + 365 with hm
        have hmv : m = 36524 * (yoe / 100) + 1461 * (yoe % 100 / 4) + 365 * (yoe % 100 % 4) + 365 := by
          omega
        have e0 : m / 36524 = yoe / 100 := by omega
        have e1 : m % 36524 = 1461 * (yoe % 100 / 4) + 365 * (yoe % 100 % 4) + 365 := by omega
        have e2 : m % 36524 / 1461 = yoe % 100 / 4 := by omega
        have e3 : m % 36524 % 1461 = 365 * (yoe % 100 % 4) + 365 := by omega
        have e4 : m % 36524 % 1461 / 365 = 4 := by omega
        rw [e4, e0, e2, if_pos (Or.inl rfl), Prod.mk.injEq]
        omega
    · -- an ordinary day of a (leap) year
      rw [yearDayOfCycle_eq]
      set m := cycB yoe + k with hm
      have hmv : m = 36524 * (yoe / 100) + 1461 * (yoe % 100 / 4) + 365 * (yoe % 100 % 4) + k := by
        omega
      have hk364 : k ≤ 364 := by omega
      have e0 : m / 36524 = yoe / 100 := by omega
      have e1 : m % 36524 = 1461 * (yoe % 100 / 4) + 365 * (yoe % 100 % 4) + k := by omega
      have e2 : m % 36524 / 1461 = yoe % 100 / 4 := by omega
      have e3 : m % 36524 % 1461 = 365 * (yoe % 100 % 4) + k := by omega
      have e4 : m % 36524 % 1461 / 365 = yoe % 100 % 4 := by omega
      have e5 : m % 36524 % 1461 % 365 = k := by omega
      rw [e4, e0, e2, e5, if_neg (by omega), Prod.mk.injEq]
      omega
  · rw [if_neg hl] at h2
    have hnl := hl ∘ (isLeap_iff_decomp yoe h1).mpr
    rw [yearDayOfCycle_eq]
    set m := cycB yoe + k with hm
    have hmv : m = 36524 * (yoe / 100) + 1461 * (yoe % 100 / 4) + 365 * (yoe % 100 % 4) + k := by
      omega
    have hs3 : ¬ (yoe % 100 % 4 = 3 ∧ (yoe % 100 / 4 ≠ 24 ∨ yoe / 100 = 3)) := by
      intro hcon; exact hnl hcon
    have hk364 : k ≤ 364 := by omega
    have hsum : 365 * (yoe % 100 % 4) + k ≤ 1459 := by omega
    have e0 : m / 36524 = yoe / 100 := by omega
    have e1 : m % 36524 = 1461 * (yoe % 100 / 4) + 365 * (yoe % 100 % 4) + k := by omega
    have e2 : m % 36524 / 1461 = yoe % 100 / 4 := by omega
    have e3 : m % 36524 % 1461 = 365 * (yoe % 100 % 4) + k := by omega
    have e4 : m % 36524 % 1461 / 365 = yoe % 100 % 4 := by omega
    have e5 : m % 36524 % 1461 % 365 = k := by omega
    rw [e4, e0, e2, e5, if_neg (by omega), Prod.mk.injEq]
    omega

theorem yearDayOfCycle_sound (r : Nat) (h : r < 146097) (yoe k : Nat)
    (he : yearDayOfCycle r = (yoe, k)) :
    yoe < 400 ∧ (k < if isLeap (yoe + 1) then 366 else 365) ∧ cycB yoe + k = r := by
  rw [yearDayOfCycle_eq] at he
  have hr1 : r % 36524 < 36524 := Nat.mod_lt _ (by norm_num)
  have hr2 : r % 36524 % 1461 < 1461 := Nat.mod_lt _ (by norm_num)
  have hr3 : r % 36524 % 1461 % 365 < 365 := Nat.mod_lt _ (by norm_num)
  have hn100 : r / 36524 ≤ 4 := by omega
  have hn4 : r % 36524 / 1461 ≤ 24 := by omega
  have hn1 : r % 36524 % 1461 / 365 ≤ 4 := by omega
  split at he
  · -- correction branch: December 31 of a leap year
    rename_i hcond
    obtain ⟨hy, hk⟩ := Prod.mk.injEq .. ▸ he
    subst hk
    rcases hcond with hc1 | hc4
    · -- n1 = 4: r sits at offset 1460 of a 4-year sub-block
      have h1460 : r % 36524 % 1461 = 1460 := by omega
      -- n4 = 24 is impossible here since r % 36524 < 36524
      have hn4' : r % 36524 / 1461 ≤ 23 := by omega
      have hy' : yoe = 100 * (r / 36524) + 4 * (r % 36524 / 1461) + 3 := by omega
      have hn100' : r / 36524 ≤ 3 := by omega
      have d4 : yoe / 4 = 25 * (r / 36524) + r % 36524 / 1461 := by omega
      have d100 : yoe / 100 = r / 36524 := by omega
      have d400 : yoe / 400 = 0 := by omega
      refine ⟨by omega, ?_, ?_⟩
      · have hleap : isLeap (yoe + 1) = true := by
          rw [isLeap, decide_eq_true_eq]
          omega
        rw [if_pos hleap]
        omega
      · rw [cycB]
        omega
    · -- n100 = 4: only r = 146096, i.e. December 31 of year 400 of the cycle
      have hr : r = 146096 := by omega
      subst hr
      have hy' : yoe = 399 := by omega
      subst hy'
      exact ⟨by omega, by decide, by decide⟩
  · rename_i hcond
    obtain ⟨hy, hk⟩ := Prod.mk.injEq .. ▸ he
    subst hk
    have hn1' : r % 36524 % 1461 / 365 ≤ 3 := by omega
    have hn100' : r / 36524 ≤ 3 := by omega
    have hy' : yoe = 100 * (r / 36524) + 4 * (r % 36524 / 1461) + r % 36524 % 1461 / 365 := by
      omega
    have d4 : yoe / 4 = 25 * (r / 36524) + r % 36524 / 1461 := by omega
    have d100 : yoe / 100 = r / 36524 := by omega
    have d400 : yoe / 400 = 0 := by omega
    refine ⟨by omega, ?_, by rw [cycB]; omega⟩
    have : r % 36524 % 1461 % 365 < 365 := hr3
    split <;> omega

theorem monthLenB_le (leap : Bool) (m : Nat) : monthLenB leap m ≤ 31 := by
  rw [monthLenB]
  split
  · split <;> omega
  · split <;> omega

theorem monthDay_dBM0 (leap : Bool) : ∀ m < 12, ∀ d < monthLenB leap (m + 1),
    monthDayOfDoy leap (dBM leap (m + 1) + d) = (m + 1, d + 1) := by
  cases leap <;> decide

theorem dBM_lt0 (leap : Bool) : ∀ m < 12, ∀ d < monthLenB leap (m + 1),
    dBM leap (m + 1) + d < (if leap then 366 else 365) := by
  cases leap <;> decide

theorem monthDay_dBM (leap : Bool) (m d : Nat) (hm1 : 1 ≤ m) (hm2 : m ≤ 12)
    (hd1 : 1 ≤ d) (hd2 : d ≤ monthLenB leap m) :
    monthDayOfDoy leap (dBM leap m + (d - 1)) = (m, d) := by
  have hmm : m - 1 + 1 = m := by omega
  have hdd : d - 1 + 1 = d := by omega
  have := monthDay_dBM0 leap (m - 1) (by omega) (d - 1) (by rw [hmm]; omega)
  rw [hmm, hdd] at this
  exact this

theorem dBM_lt (leap : Bool) (m d : Nat) (hm1 : 1 ≤ m) (hm2 : m ≤ 12)
    (hd1 : 1 ≤ d) (hd2 : d ≤ monthLenB leap m) :
    dBM leap m + (d - 1) < (if leap then 366 else 365) := by
  have hmm : m - 1 + 1 = m := by omega
  have := dBM_lt0 leap (m - 1) (by omega) (d - 1) (by rw [hmm]; omega)
  rw [hmm] at this
  exact this

set_option maxRecDepth 4000 in
theorem monthDay_sound (leap : Bool) : ∀ k < (if leap then 366 else 365),
    1 ≤ (monthDayOfDoy leap k).1 ∧ (monthDayOfDoy leap k).1 ≤ 12 ∧
    1 ≤ (monthDayOfDoy leap k).2 ∧
    (monthDayOfDoy leap k).2 ≤ monthLenB leap (monthDayOfDoy leap k).1 ∧
    dBM leap (monthDayOfDoy leap k).1 + ((monthDayOfDoy leap k).2 - 1) = k := by
  cases leap <;> decide

theorem dateOfDays_eq (n : Nat) :
    dateOfDays n =
      (400 * (n / 146097) + (yearDayOfCycle (n % 146097)).1 + 1,
       (monthDayOfDoy (isLeap (400 * (n / 146097) + (yearDayOfCycle (n % 146097)).1 + 1))
          (yearDayOfCycle (n % 146097)).2).1,
       (monthDayOfDoy (isLeap (400 * (n / 146097) + (yearDayOfCycle (n % 146097)).1 + 1))
          (yearDayOfCycle (n % 146097)).2).2) := rfl

/-- Round trip: encoding a valid Gregorian date to its ordinal day number and
decoding recovers the date.  This is the `fromordinal (toordinal d) = d` law of
Python's `datetime.date`. -/
theorem dateOfDays_daysOfDate (y m d : Nat) (h1 : 1 ≤ y) (h2 : y ≤ 9999)
    (hm1 : 1 ≤ m) (hm2 : m ≤ 12) (hd1 : 1 ≤ d) (hd2 : d ≤ monthLenB (isLeap y) m) :
    dateOfDays (daysOfDate y m d) = (y, m, d) := by
  have hml : monthLenB (isLeap y) m ≤ 31 := monthLenB_le _ _
  set a := (y - 1) / 400 with ha
  set yoe := (y - 1) % 400 with hyoe
  have hy : y = 400 * a + yoe + 1 := by omega
  have hyoe400 : yoe < 400 := by omega
  have hleap : isLeap y = isLeap (yoe + 1) := by rw [hy]; exact isLeap_cycle a yoe
  have hklt : dBM (isLeap y) m + (d - 1) < if isLeap (yoe + 1) then 366 else 365 := by
    rw [← hleap]
    exact dBM_lt (isLeap y) m d hm1 hm2 hd1 hd2
  have hkle365 : dBM (isLeap y) m + (d - 1) ≤ 365 := by
    revert hklt; split <;> omega
  have hcycle : cycB yoe ≤ 145731 := by
    have hB := cycB_decomp yoe hyoe400
    omega
  have hdays : daysOfDate y m d = 146097 * a + (cycB yoe + (dBM (isLeap y) m + (d - 1))) := by
    rw [daysOfDate, hy, daysBeforeYear_split a yoe hyoe400, ← hy]
    omega
  have hcycbound : cycB yoe + (dBM (isLeap y) m + (d - 1)) < 146097 := by omega
  rw [hdays, dateOfDays_eq]
  have hdiv : (146097 * a + (cycB yoe + (dBM (isLeap y) m + (d - 1)))) / 146097 = a := by omega
  have hmod : (146097 * a + (cycB yoe + (dBM (isLeap y) m + (d - 1)))) % 146097
      = cycB yoe + (dBM (isLeap y) m + (d - 1)) := by omega
  rw [hdiv, hmod, yearDayOfCycle_cycB yoe (dBM (isLeap y) m + (d - 1)) hyoe400 hklt]
  rw [isLeap_cycle a yoe, ← hleap]
  rw [monthDay_dBM (isLeap y) m d hm1 hm2 hd1 hd2]
  rw [← hy]

/-- Soundness of decoding: every day number in Python's `date` range decodes to
a valid Gregorian date whose ordinal is the day number again. -/
theorem daysOfDate_dateOfDays (n : Nat) (h : n ≤ maxDay) (y m d : Nat)
    (he : dateOfDays n = (y, m, d)) :
    1 ≤ y ∧ y ≤ 9999 ∧ 1 ≤ m ∧ m ≤ 12 ∧ 1 ≤ d ∧ d ≤ monthLenB (isLeap y) m ∧
      daysOfDate y m d = n := by
  simp only [maxDay] at h
  rw [dateOfDays_eq] at he
  injection he with hy1 hrest
  injection hrest with hm1 hd1
  set a := n / 146097 with ha
  set r := n % 146097 with hr
  set p1 := (yearDayOfCycle r).1 with hp1
  set p2 := (yearDayOfCycle r).2 with hp2
  rw [hy1] at hm1 hd1
  have hrlt : r < 146097 := by omega
  have hps : yearDayOfCycle r = (p1, p2) := rfl
  obtain ⟨hyoe400, hklen, hcyc⟩ := yearDayOfCycle_sound r hrlt p1 p2 hps
  have hly : isLeap y = isLeap (p1 + 1) := by rw [← hy1]; exact isLeap_cycle a p1
  have hklen366 : p2 < 366 := by revert hklen; split <;> omega
  have hms := monthDay_sound (isLeap (p1 + 1)) p2 hklen
  rw [← hly] at hms
  rw [hm1, hd1] at hms
  obtain ⟨v1, v2, v3, v4, v5⟩ := hms
  have ha24 : a ≤ 24 := by omega
  have hy9999 : y ≤ 9999 := by
    rcases Nat.lt_or_ge p1 399 with hlt | hge
    · omega
    · have hp399 : p1 = 399 := by omega
      have hcb : cycB 399 = 145731 := by decide
      rw [hp399, hcb] at hcyc
      omega
  refine ⟨by omega, hy9999, v1, v2, v3, v4, ?_⟩
  rw [daysOfDate, ← hy1, daysBeforeYear_split a p1 hyoe400, hy1]
  omega

/-! ## Characters and digits (the ASCII alphabet of the timestamp format) -/

/-- ASCII digit character with value `n` (for `n < 10`). -/
def dChar (n : Nat) : Char := Char.ofNat (48 + n)

/-- Numeric value of an ASCII digit character. -/
def digitVal (c : Char) : Nat := c.toNat - 48

/-- The regex character class `\d`, over the ASCII digits `0`–`9`
(the alphabet of the fixed-width `YYYYMMDDTHHMMSS` format). -/
def isDig (c : Char) : Bool := decide (48 ≤ c.toNat ∧ c.toNat ≤ 57)

theorem dChar_toNat : ∀ n < 10, (dChar n).toNat = 48 + n := by decide

theorem isDig_dChar : ∀ n < 10, isDig (dChar n) = true := by decide

theorem digitVal_dChar : ∀ n < 10, digitVal (dChar n) = n := by decide

theorem isDig_bounds (c : Char) (h : isDig c = true) : 48 ≤ c.toNat ∧ c.toNat ≤ 57 :=
  of_decide_eq_true h

theorem digitVal_lt (c : Char) (h : isDig c = true) : digitVal c < 10 := by
  obtain ⟨h1, h2⟩ := isDig_bounds c h
  rw [digitVal]; omega

theorem dChar_digitVal (c : Char) (h : isDig c = true) : dChar (digitVal c) = c := by
  obtain ⟨h1, h2⟩ := isDig_bounds c h
  rw [dChar, digitVal]
  have h3 : 48 + (c.toNat - 48) = c.toNat := by omega
  rw [h3]
  exact Char.ofNat_toNat c

theorem ne_T_of_isDig (c : Char) (h : isDig c = true) : c ≠ 'T' := by
  intro he
  rw [he] at h
  exact absurd h (by decide)

/-! ## Timestamp tokens: the regex `\d{8}T\d{6}` and `strptime`/`strftime` -/

/-- Lexical shape of a timestamp token: the 15-character pattern `\d{8}T\d{6}`. -/
def isToken : List Char → Bool
  | [c0, c1, c2, c3, c4, c5, c6, c7, c8, c9, c10, c11, c12, c13, c14] =>
    isDig c0 && isDig c1 && isDig c2 && isDig c3 && isDig c4 && isDig c5 &&
    isDig c6 && isDig c7 && (c8 == 'T') && isDig c9 && isDig c10 && isDig c11 &&
    isDig c12 && isDig c13 && isDig c14
  | _ => false

/-- Digit value at position `i` of a token. -/
def tokVal (l : List Char) (i : Nat) : Nat := digitVal (l.getD i ' ')

/-- The `%Y` field of a token. -/
def tokYear (l : List Char) : Nat :=
  1000 * tokVal l 0 + 100 * tokVal l 1 + 10 * tokVal l 2 + tokVal l 3

/-- The `%m` field of a token. -/
def tokMonth (l : List Char) : Nat := 10 * tokVal l 4 + tokVal l 5

/-- The `%d` field of a token. -/
def tokDay (l : List Char) : Nat := 10 * tokVal l 6 + tokVal l 7

/-- The `%H` field of a token. -/
def tokHour (l : List Char) : Nat := 10 * tokVal l 9 + tokVal l 10

/-- The `%M` field of a token. -/
def tokMin (l : List Char) : Nat := 10 * tokVal l 11 + tokVal l 12

/-- The `%S` field of a token. -/
def tokSec (l : List Char) : Nat := 10 * tokVal l 13 + tokVal l 14

/-- `datetime.strptime(s, "%Y%m%dT%H%M%S")`, returning seconds since
0001-01-01T00:00:00, or `none` on the `ValueError` Python raises for a
lexically valid but semantically impossible date or time (including year 0,
month 0/13, day beyond the month length, hour 24, and so on). -/
def parseTok (l : List Char) : Option Nat :=
  if isToken l = true ∧ 1 ≤ tokYear l ∧ 1 ≤ tokMonth l ∧ tokMonth l ≤ 12 ∧
     1 ≤ tokDay l ∧ tokDay l ≤ monthLenB (isLeap (tokYear l)) (tokMonth l) ∧
     tokHour l ≤ 23 ∧ tokMin l ≤ 59 ∧ tokSec l ≤ 59
  then some (secOfDateTime (tokYear l) (tokMonth l) (tokDay l)
               (tokHour l) (tokMin l) (tokSec l))
  else none

/-- `dt.strftime("%Y%m%dT%H%M%S")` for the date-time `t` seconds since
0001-01-01T00:00:00: the fixed-width 15-character re-encoding. -/
def formatChars (t : Nat) : List Char :=
  [dChar ((dateOfDays (t / 86400)).1 / 1000),
   dChar ((dateOfDays (t / 86400)).1 / 100 % 10),
   dChar ((dateOfDays (t / 86400)).1 / 10 % 10),
   dChar ((dateOfDays (t / 86400)).1 % 10),
   dChar ((dateOfDays (t / 86400)).2.1 / 10),
   dChar ((dateOfDays (t / 86400)).2.1 % 10),
   dChar ((dateOfDays (t / 86400)).2.2 / 10),
   dChar ((dateOfDays (t / 86400)).2.2 % 10),
   'T',
   dChar (t % 86400 / 3600 / 10),
   dChar (t % 86400 / 3600 % 10),
   dChar (t % 86400 % 3600 / 60 / 10),
   dChar (t % 86400 % 3600 / 60 % 10),
   dChar (t % 86400 % 60 / 10),
   dChar (t % 86400 % 60 % 10)]

/-- A list of length 15 is the list of its first 15 entries. -/
theorem eq_cons15 (l : List Char) (h : l.length = 15) :
    l = [l.getD 0 ' ', l.getD 1 ' ', l.getD 2 ' ', l.getD 3 ' ', l.getD 4 ' ',
         l.getD 5 ' ', l.getD 6 ' ', l.getD 7 ' ', l.getD 8 ' ', l.getD 9 ' ',
         l.getD 10 ' ', l.getD 11 ' ', l.getD 12 ' ', l.getD 13 ' ', l.getD 14 ' '] := by
  rcases l with _ | ⟨c0, l⟩; · simp at h
  rcases l with _ | ⟨c1, l⟩; · simp at h
  rcases l with _ | ⟨c2, l⟩; · simp at h
  rcases l with _ | ⟨c3, l⟩; · simp at h
  rcases l with _ | ⟨c4, l⟩; · simp at h
  rcases l with _ | ⟨c5, l⟩; · simp at h
  rcases l with _ | ⟨c6, l⟩; · simp at h
  rcases l with _ | ⟨c7, l⟩; · simp at h
  rcases l with _ | ⟨c8, l⟩; · simp at h
  rcases l with _ | ⟨c9, l⟩; · simp at h
  rcases l with _ | ⟨c10, l⟩; · simp at h
  rcases l with _ | ⟨c11, l⟩; · simp at h
  rcases l with _ | ⟨c12, l⟩; · simp at h
  rcases l with _ | ⟨c13, l⟩; · simp at h
  rcases l with _ | ⟨c14, l⟩; · simp at h
  rcases l with _ | ⟨c15, l⟩
  · rfl
  · simp at h

theorem isToken_shape (l : List Char) (h : isToken l = true) :
    ∃ c0 c1 c2 c3 c4 c5 c6 c7 c9 c10 c11 c12 c13 c14,
      l = [c0, c1, c2, c3, c4, c5, c6, c7, 'T', c9, c10, c11, c12, c13, c14] ∧
      isDig c0 = true ∧ isDig c1 = true ∧ isDig c2 = true ∧ isDig c3 = true ∧
      isDig c4 = true ∧ isDig c5 = true ∧ isDig c6 = true ∧ isDig c7 = true ∧
      isDig c9 = true ∧ isDig c10 = true ∧ isDig c11 = true ∧ isDig c12 = true ∧
      isDig c13 = true ∧ isDig c14 = true := by
  rcases l with _ | ⟨c0, l⟩; · exact Bool.noConfusion h
  rcases l with _ | ⟨c1, l⟩; · exact Bool.noConfusion h
  rcases l with _ | ⟨c2, l⟩; · exact Bool.noConfusion h
  rcases l with _ | ⟨c3, l⟩; · exact Bool.noConfusion h
  rcases l with _ | ⟨c4, l⟩; · exact Bool.noConfusion h
  rcases l with _ | ⟨c5, l⟩; · exact Bool.noConfusion h
  rcases l with _ | ⟨c6, l⟩; · exact Bool.noConfusion h
  rcases l with _ | ⟨c7, l⟩; · exact Bool.noConfusion h
  rcases l with _ | ⟨c8, l⟩; · exact Bool.noConfusion h
  rcases l with _ | ⟨c9, l⟩; · exact Bool.noConfusion h
  rcases l with _ | ⟨c10, l⟩; · exact Bool.noConfusion h
  rcases l with _ | ⟨c11, l⟩; · exact Bool.noConfusion h
  rcases l with _ | ⟨c12, l⟩; · exact Bool.noConfusion h
  rcases l with _ | ⟨c13, l⟩; · exact Bool.noConfusion h
  rcases l with _ | ⟨c14, l⟩; · exact Bool.noConfusion h
  rcases l with _ | ⟨c15, l⟩
  · simp only [isToken, Bool.and_eq_true, beq_iff_eq] at h
    obtain ⟨⟨⟨⟨⟨⟨⟨⟨⟨⟨⟨⟨⟨⟨h0, h1⟩, h2⟩, h3⟩, h4⟩, h5⟩, h6⟩, h7⟩, hT⟩, h9⟩, h10⟩, h11⟩,
      h12⟩, h13⟩, h14⟩ := h
    subst hT
    exact ⟨c0, c1, c2, c3, c4, c5, c6, c7, c9, c10, c11, c12, c13, c14, rfl,
      h0, h1, h2, h3, h4, h5, h6, h7, h9, h10, h11, h12, h13, h14⟩
  · exact Bool.noConfusion h

theorem daysOfDate_le_maxDay (y m d : Nat) (h2 : y ≤ 9999) (hm1 : 1 ≤ m) (hm2 : m ≤ 12)
    (hd1 : 1 ≤ d) (hd2 : d ≤ monthLenB (isLeap y) m) :
    daysOfDate y m d ≤ maxDay := by
  have hlt := dBM_lt (isLeap y) m d hm1 hm2 hd1 hd2
  simp only [maxDay]
  by_cases hl : isLeap y = true
  · rw [if_pos hl] at hlt
    have hcontent : (y % 4 = 0 ∧ ¬ y % 100 = 0) ∨ y % 400 = 0 := by
      rw [isLeap] at hl; exact of_decide_eq_true hl
    rw [daysOfDate, daysBeforeYear, leapsBefore]
    omega
  · rw [if_neg hl] at hlt
    rw [daysOfDate, daysBeforeYear, leapsBefore]
    omega

/-- `strftime` of a packed valid date-time, componentwise. -/
theorem formatChars_secOf (y mo d h mi s : Nat) (hy1 : 1 ≤ y) (hy2 : y ≤ 9999)
    (hmo1 : 1 ≤ mo) (hmo2 : mo ≤ 12) (hd1 : 1 ≤ d) (hd2 : d ≤ monthLenB (isLeap y) mo)
    (hh : h ≤ 23) (hmi : mi ≤ 59) (hs : s ≤ 59) :
    formatChars (secOfDateTime y mo d h mi s) =
      [dChar (y / 1000), dChar (y / 100 % 10), dChar (y / 10 % 10), dChar (y % 10),
       dChar (mo / 10), dChar (mo % 10), dChar (d / 10), dChar (d % 10), 'T',
       dChar (h / 10), dChar (h % 10), dChar (mi / 10), dChar (mi % 10),
       dChar (s / 10), dChar (s % 10)] := by
  have hday : secOfDateTime y mo d h mi s / 86400 = daysOfDate y mo d := by
    rw [secOfDateTime]; omega
  have htod1 : secOfDateTime y mo d h mi s % 86400 / 3600 = h := by
    rw [secOfDateTime]; omega
  have htod2 : secOfDateTime y mo d h mi s % 86400 % 3600 / 60 = mi := by
    rw [secOfDateTime]; omega
  have htod3 : secOfDateTime y mo d h mi s % 86400 % 60 = s := by
    rw [secOfDateTime]; omega
  rw [formatChars, hday, htod1, htod2, htod3,
    dateOfDays_daysOfDate y mo d hy1 hy2 hmo1 hmo2 hd1 hd2]

/-- Shape, and field values, of a token built from digit characters. -/
theorem formatTok_build (a0 a1 a2 a3 a4 a5 a6 a7 b0 b1 b2 b3 b4 b5 : Nat) (L : List Char)
    (hL : L = [dChar a0, dChar a1, dChar a2, dChar a3, dChar a4, dChar a5, dChar a6, dChar a7,
               'T', dChar b0, dChar b1, dChar b2, dChar b3, dChar b4, dChar b5])
    (h0 : a0 < 10) (h1 : a1 < 10) (h2 : a2 < 10) (h3 : a3 < 10) (h4 : a4 < 10) (h5 : a5 < 10)
    (h6 : a6 < 10) (h7 : a7 < 10) (k0 : b0 < 10) (k1 : b1 < 10) (k2 : b2 < 10) (k3 : b3 < 10)
    (k4 : b4 < 10) (k5 : b5 < 10) :
    isToken L = true ∧ tokYear L = 1000 * a0 + 100 * a1 + 10 * a2 + a3 ∧
    tokMonth L = 10 * a4 + a5 ∧ tokDay L = 10 * a6 + a7 ∧
    tokHour L = 10 * b0 + b1 ∧ tokMin L = 10 * b2 + b3 ∧ tokSec L = 10 * b4 + b5 := by
  subst hL
  refine ⟨?_, ?_, ?_, ?_, ?_, ?_, ?_⟩
  · simp only [isToken]
    rw [isDig_dChar a0 h0, isDig_dChar a1 h1, isDig_dChar a2 h2, isDig_dChar a3 h3,
      isDig_dChar a4 h4, isDig_dChar a5 h5, isDig_dChar a6 h6, isDig_dChar a7 h7,
      isDig_dChar b0 k0, isDig_dChar b1 k1, isDig_dChar b2 k2, isDig_dChar b3 k3,
      isDig_dChar b4 k4, isDig_dChar b5 k5]
    rfl
  · show 1000 * digitVal (dChar a0) + 100 * digitVal (dChar a1) + 10 * digitVal (dChar a2) +
      digitVal (dChar a3) = 1000 * a0 + 100 * a1 + 10 * a2 + a3
    rw [digitVal_dChar a0 h0, digitVal_dChar a1 h1, digitVal_dChar a2 h2, digitVal_dChar a3 h3]
  · show 10 * digitVal (dChar a4) + digitVal (dChar a5) = 10 * a4 + a5
    rw [digitVal_dChar a4 h4, digitVal_dChar a5 h5]
  · show 10 * digitVal (dChar a6) + digitVal (dChar a7) = 10 * a6 + a7
    rw [digitVal_dChar a6 h6, digitVal_dChar a7 h7]
  · show 10 * digitVal (dChar b0) + digitVal (dChar b1) = 10 * b0 + b1
    rw [digitVal_dChar b0 k0, digitVal_dChar b1 k1]
  · show 10 * digitVal (dChar b2) + digitVal (dChar b3) = 10 * b2 + b3
    rw [digitVal_dChar b2 k2, digitVal_dChar b3 k3]
  · show 10 * digitVal (dChar b4) + digitVal (dChar b5) = 10 * b4 + b5
    rw [digitVal_dChar b4 k4, digitVal_dChar b5 k5]

theorem tokYear_le (l : List Char) (h : isToken l = true) : tokYear l ≤ 9999 := by
  obtain ⟨c0, c1, c2, c3, c4, c5, c6, c7, c9, c10, c11, c12, c13, c14, hL,
    d0, d1, d2, d3, d4, d5, d6, d7, d9, d10, d11, d12, d13, d14⟩ := isToken_shape l h
  subst hL
  have b0 := digitVal_lt c0 d0
  have b1 := digitVal_lt c1 d1
  have b2 := digitVal_lt c2 d2
  have b3 := digitVal_lt c3 d3
  show 1000 * digitVal c0 + 100 * digitVal c1 + 10 * digitVal c2 + digitVal c3 ≤ 9999
  omega

/-- Every value `strptime` accepts is in Python's representable `datetime` range. -/
theorem parseTok_isToken (l : List Char) (t : Nat) (h : parseTok l = some t) :
    isToken l = true ∧ t ≤ maxSec := by
  rw [parseTok] at h
  split at h
  · rename_i hc
    obtain ⟨htok, hy1, hmo1, hmo12, hd1, hdml, hh, hmi, hs⟩ := hc
    injection h with ht
    refine ⟨htok, ?_⟩
    rw [← ht]
    have hy9999 := tokYear_le l htok
    have hdle := daysOfDate_le_maxDay (tokYear l) (tokMonth l) (tokDay l) hy9999
      hmo1 hmo12 hd1 hdml
    simp only [maxDay] at hdle
    simp only [maxSec]
    rw [secOfDateTime]
    omega
  · exact Option.noConfusion h

/-- `strptime` inverts `strftime` on every representable date-time. -/
theorem parseTok_formatChars (t : Nat) (h : t ≤ maxSec) :
    parseTok (formatChars t) = some t := by
  have hday : t / 86400 ≤ maxDay := by
    simp only [maxSec] at h; simp only [maxDay]; omega
  obtain ⟨hy1, hy2, hm1, hm2, hd1, hd2, heq⟩ :=
    daysOfDate_dateOfDays (t / 86400) hday (dateOfDays (t / 86400)).1
      (dateOfDays (t / 86400)).2.1 (dateOfDays (t / 86400)).2.2 rfl
  have hd31 : (dateOfDays (t / 86400)).2.2 ≤ 31 := le_trans hd2 (monthLenB_le _ _)
  have htmod : t % 86400 < 86400 := by omega
  obtain ⟨htok, hY, hMo, hD, hH, hMi, hS⟩ :=
    formatTok_build ((dateOfDays (t / 86400)).1 / 1000) ((dateOfDays (t / 86400)).1 / 100 % 10)
      ((dateOfDays (t / 86400)).1 / 10 % 10) ((dateOfDays (t / 86400)).1 % 10)
      ((dateOfDays (t / 86400)).2.1 / 10) ((dateOfDays (t / 86400)).2.1 % 10)
      ((dateOfDays (t / 86400)).2.2 / 10) ((dateOfDays (t / 86400)).2.2 % 10)
      (t % 86400 / 3600 / 10) (t % 86400 / 3600 % 10)
      (t % 86400 % 3600 / 60 / 10) (t % 86400 % 3600 / 60 % 10)
      (t % 86400 % 60 / 10) (t % 86400 % 60 % 10)
      (formatChars t) rfl
      (by omega) (by omega) (by omega) (by omega) (by omega) (by omega) (by omega) (by omega)
      (by omega) (by omega) (by omega) (by omega) (by omega) (by omega)
  have hY' : tokYear (formatChars t) = (dateOfDays (t / 86400)).1 := by rw [hY]; omega
  have hMo' : tokMonth (formatChars t) = (dateOfDays (t / 86400)).2.1 := by rw [hMo]; omega
  have hD' : tokDay (formatChars t) = (dateOfDays (t / 86400)).2.2 := by rw [hD]; omega
  have hH' : tokHour (formatChars t) = t % 86400 / 3600 := by rw [hH]; omega
  have hMi' : tokMin (formatChars t) = t % 86400 % 3600 / 60 := by rw [hMi]; omega
  have hS' : tokSec (formatChars t) = t % 86400 % 60 := by rw [hS]; omega
  have hcond : isToken (formatChars t) = true ∧ 1 ≤ tokYear (formatChars t) ∧
      1 ≤ tokMonth (formatChars t) ∧ tokMonth (formatChars t) ≤ 12 ∧
      1 ≤ tokDay (formatChars t) ∧
      tokDay (formatChars t) ≤ monthLenB (isLeap (tokYear (formatChars t)))
        (tokMonth (formatChars t)) ∧
      tokHour (formatChars t) ≤ 23 ∧ tokMin (formatChars t) ≤ 59 ∧
      tokSec (formatChars t) ≤ 59 := by
    refine ⟨htok, ?_, ?_, ?_, ?_, ?_, ?_, ?_, ?_⟩
    · rw [hY']; exact hy1
    · rw [hMo']; exact hm1
    · rw [hMo']; exact hm2
    · rw [hD']; exact hd1
    · rw [hY', hMo', hD']; exact hd2
    · rw [hH']; omega
    · rw [hMi']; omega
    · rw [hS']; omega
  rw [parseTok, if_pos hcond, hY', hMo', hD', hH', hMi', hS']
  have hsec : secOfDateTime (dateOfDays (t / 86400)).1 (dateOfDays (t / 86400)).2.1
      (dateOfDays (t / 86400)).2.2 (t % 86400 / 3600) (t % 86400 % 3600 / 60)
      (t % 86400 % 60) = t := by
    rw [secOfDateTime, heq]; omega
  rw [hsec]

/-- `strftime` inverts `strptime`: re-encoding a parsed token reproduces the
token character for character. -/
theorem formatChars_parseTok (l : List Char) (t : Nat) (h : parseTok l = some t) :
    formatChars t = l := by
  rw [parseTok] at h
  split at h
  · rename_i hc
    obtain ⟨htok, hy1, hmo1, hmo12, hd1, hdml, hh, hmi, hs⟩ := hc
    injection h with ht
    obtain ⟨c0, c1, c2, c3, c4, c5, c6, c7, c9, c10, c11, c12, c13, c14, hL,
      d0, d1, d2, d3, d4, d5, d6, d7, d9, d10, d11, d12, d13, d14⟩ := isToken_shape l htok
    subst hL
    have b0 := digitVal_lt c0 d0
    have b1 := digitVal_lt c1 d1
    have b2 := digitVal_lt c2 d2
    have b3 := digitVal_lt c3 d3
    have b4 := digitVal_lt c4 d4
    have b5 := digitVal_lt c5 d5
    have b6 := digitVal_lt c6 d6
    have b7 := digitVal_lt c7 d7
    have b9 := digitVal_lt c9 d9
    have b10 := digitVal_lt c10 d10
    have b11 := digitVal_lt c11 d11
    have b12 := digitVal_lt c12 d12
    have b13 := digitVal_lt c13 d13
    have b14 := digitVal_lt c14 d14
    have hL2 : [c0, c1, c2, c3, c4, c5, c6, c7, 'T', c9, c10, c11, c12, c13, c14] =
        [dChar (digitVal c0), dChar (digitVal c1), dChar (digitVal c2), dChar (digitVal c3),
         dChar (digitVal c4), dChar (digitVal c5), dChar (digitVal c6), dChar (digitVal c7),
         'T', dChar (digitVal c9), dChar (digitVal c10), dChar (digitVal c11),
         dChar (digitVal c12), dChar (digitVal c13), dChar (digitVal c14)] := by
      rw [dChar_digitVal c0 d0, dChar_digitVal c1 d1, dChar_digitVal c2 d2, dChar_digitVal c3 d3,
        dChar_digitVal c4 d4, dChar_digitVal c5 d5, dChar_digitVal c6 d6, dChar_digitVal c7 d7,
        dChar_digitVal c9 d9, dChar_digitVal c10 d10, dChar_digitVal c11 d11,
        dChar_digitVal c12 d12, dChar_digitVal c13 d13, dChar_digitVal c14 d14]
    rw [hL2] at ht hy1 hmo1 hmo12 hd1 hdml hh hmi hs ⊢
    obtain ⟨htok2, hY, hMo, hD, hH, hMi, hS⟩ :=
      formatTok_build (digitVal c0) (digitVal c1) (digitVal c2) (digitVal c3) (digitVal c4)
        (digitVal c5) (digitVal c6) (digitVal c7) (digitVal c9) (digitVal c10) (digitVal c11)
        (digitVal c12) (digitVal c13) (digitVal c14) _ rfl
        b0 b1 b2 b3 b4 b5 b6 b7 b9 b10 b11 b12 b13 b14
    rw [hY] at hy1
    rw [hMo] at hmo1 hmo12
    rw [hY, hMo, hD] at hdml
    rw [hD] at hd1
    rw [hH] at hh
    rw [hMi] at hmi
    rw [hS] at hs
    rw [hY, hMo, hD, hH, hMi, hS] at ht
    have hy9999 : 1000 * digitVal c0 + 100 * digitVal c1 + 10 * digitVal c2 + digitVal c3
        ≤ 9999 := by omega
    rw [← ht, formatChars_secOf _ _ _ _ _ _ hy1 hy9999 hmo1 hmo12 hd1 hdml hh hmi hs]
    have q0 : (1000 * digitVal c0 + 100 * digitVal c1 + 10 * digitVal c2 + digitVal c3) / 1000
        = digitVal c0 := by omega
    have q1 : (1000 * digitVal c0 + 100 * digitVal c1 + 10 * digitVal c2 + digitVal c3)
        / 100 % 10 = digitVal c1 := by omega
    have q2 : (1000 * digitVal c0 + 100 * digitVal c1 + 10 * digitVal c2 + digitVal c3)
        / 10 % 10 = digitVal c2 := by omega
    have q3 : (1000 * digitVal c0 + 100 * digitVal c1 + 10 * digitVal c2 + digitVal c3)
        % 10 = digitVal c3 := by omega
    have q4 : (10 * digitVal c4 + digitVal c5) / 10 = digitVal c4 := by omega
    have q5 : (10 * digitVal c4 + digitVal c5) % 10 = digitVal c5 := by omega
    have q6 : (10 * digitVal c6 + digitVal c7) / 10 = digitVal c6 := by omega
    have q7 : (10 * digitVal c6 + digitVal c7) % 10 = digitVal c7 := by omega
    have q9 : (10 * digitVal c9 + digitVal c10) / 10 = digitVal c9 := by omega
    have q10 : (10 * digitVal c9 + digitVal c10) % 10 = digitVal c10 := by omega
    have q11 : (10 * digitVal c11 + digitVal c12) / 10 = digitVal c11 := by omega
    have q12 : (10 * digitVal c11 + digitVal c12) % 10 = digitVal c12 := by omega
    have q13 : (10 * digitVal c13 + digitVal c14) / 10 = digitVal c13 := by omega
    have q14 : (10 * digitVal c13 + digitVal c14) % 10 = digitVal c14 := by omega
    rw [q0, q1, q2, q3, q4, q5, q6, q7, q9, q10, q11, q12, q13, q14]
  · exact Option.noConfusion h

/-! ## The regex scanner: `re.findall` and `re.sub` for the fixed pattern -/

/-- Error taxonomy of the transform (section 7 of the specification).
`NoTimestampsFound` is `min()` of an empty sequence, `InvalidDate` is the
`ValueError` of `strptime`, `OverflowErr` is the `OverflowError` of
date arithmetic leaving Python's representable range. -/
inductive ShiftErr
  | NoTimestampsFound
  | InvalidDate
  | OverflowErr
deriving DecidableEq

/-- One attempt of the fixed-width pattern `\d{8}T\d{6}` at the current
position: it matches the next 15 characters or fails. -/
def tryMatch (l : List Char) : Option (List Char × List Char) :=
  if isToken (l.take 15) = true then some (l.take 15, l.drop 15) else none

/-- Fuel-indexed scanner underlying `re.findall` (left-to-right,
non-overlapping; on a failed attempt the scan advances one character). -/
def findAllF : Nat → List Char → List (List Char)
  | 0, _ => []
  | _ + 1, [] => []
  | fuel + 1, c :: cs =>
    match tryMatch (c :: cs) with
    | some (tok, rest) => tok :: findAllF fuel rest
    | none => findAllF fuel cs

/-- `re.findall(pattern, l)`. -/
def findAll (l : List Char) : List (List Char) := findAllF l.length l

/-- Fuel-indexed decomposition of a document into non-match characters
(`Sum.inl`) and matches (`Sum.inr`), by the same scan as `findAllF`. -/
def splitTokensF : Nat → List Char → List (Char ⊕ List Char)
  | 0, _ => []
  | _ + 1, [] => []
  | fuel + 1, c :: cs =>
    match tryMatch (c :: cs) with
    | some (tok, rest) => Sum.inr tok :: splitTokensF fuel rest
    | none => Sum.inl c :: splitTokensF fuel cs

/-- Decomposition of a document into its non-match characters and matches. -/
def splitTokens (l : List Char) : List (Char ⊕ List Char) := splitTokensF l.length l

/-- Fuel-indexed substitution underlying `re.sub(pattern, f, l)` with a
fallible replacement function: the first exception raised by `f` aborts
the substitution, as in Python. -/
def subExceptF (f : List Char → Except ShiftErr (List Char)) :
    Nat → List Char → Except ShiftErr (List Char)
  | 0, l => Except.ok l
  | _ + 1, [] => Except.ok []
  | fuel + 1, c :: cs =>
    match tryMatch (c :: cs) with
    | some (tok, rest) =>
      match f tok with
      | Except.error e => Except.error e
      | Except.ok r =>
        match subExceptF f fuel rest with
        | Except.error e => Except.error e
        | Except.ok tail => Except.ok (r ++ tail)
    | none =>
      match subExceptF f fuel cs with
      | Except.error e => Except.error e
      | Except.ok tail => Except.ok (c :: tail)

/-- `re.sub(pattern, f, l)` with a fallible replacement function. -/
def subExcept (f : List Char → Except ShiftErr (List Char)) (l : List Char) :
    Except ShiftErr (List Char) := subExceptF f l.length l

/-- Reassemble a decomposition, applying `g` to every match. -/
def renderWith (g : List Char → List Char) : List (Char ⊕ List Char) → List Char
  | [] => []
  | Sum.inl c :: r => c :: renderWith g r
  | Sum.inr tok :: r => g tok ++ renderWith g r

theorem isToken_length (l : List Char) (h : isToken l = true) : l.length = 15 := by
  obtain ⟨c0, c1, c2, c3, c4, c5, c6, c7, c9, c10, c11, c12, c13, c14, hL, _⟩ :=
    isToken_shape l h
  subst hL
  rfl

theorem tryMatch_some (l tok rest : List Char) (h : tryMatch l = some (tok, rest)) :
    isToken tok = true ∧ tok.length = 15 ∧ l = tok ++ rest := by
  rw [tryMatch] at h
  split at h
  · rename_i htk
    injection h with h2
    obtain ⟨h3, h4⟩ := Prod.mk.injEq .. ▸ h2
    subst h3; subst h4
    exact ⟨htk, isToken_length _ htk, (List.take_append_drop 15 l).symm⟩
  · exact Option.noConfusion h

theorem tryMatch_token (t r : List Char) (h : isToken t = true) :
    tryMatch (t ++ r) = some (t, r) := by
  have hlen := isToken_length t h
  have h1 : (t ++ r).take 15 = t := by rw [← hlen]; exact List.take_left t r
  have h2 : (t ++ r).drop 15 = r := by rw [← hlen]; exact List.drop_left t r
  rw [tryMatch, h1, h2, if_pos h]

/-- Character classes the pattern distinguishes: a digit, the literal `T`,
anything else. -/
inductive CClass
  | digit
  | tsep
  | other
deriving DecidableEq

/-- Class of a character. -/
def clsOf (c : Char) : CClass :=
  if c = 'T' then CClass.tsep else if isDig c = true then CClass.digit else CClass.other

/-- The class sequence every token has. -/
def tokCls : List CClass :=
  [CClass.digit, CClass.digit, CClass.digit, CClass.digit, CClass.digit, CClass.digit,
   CClass.digit, CClass.digit, CClass.tsep, CClass.digit, CClass.digit, CClass.digit,
   CClass.digit, CClass.digit, CClass.digit]

theorem clsOf_digit (c : Char) (h : isDig c = true) : clsOf c = CClass.digit := by
  rw [clsOf, if_neg (ne_T_of_isDig c h), if_pos h]

theorem digit_of_clsOf (c : Char) (h : clsOf c = CClass.digit) : isDig c = true := by
  rw [clsOf] at h
  split at h
  · exact CClass.noConfusion h
  · split at h
    · assumption
    · exact CClass.noConfusion h

theorem tsep_of_clsOf (c : Char) (h : clsOf c = CClass.tsep) : c = 'T' := by
  rw [clsOf] at h
  split at h
  · assumption
  · split at h <;> exact CClass.noConfusion h

theorem isToken_cls (l : List Char) (h : isToken l = true) : l.map clsOf = tokCls := by
  obtain ⟨c0, c1, c2, c3, c4, c5, c6, c7, c9, c10, c11, c12, c13, c14, hL,
    d0, d1, d2, d3, d4, d5, d6, d7, d9, d10, d11, d12, d13, d14⟩ := isToken_shape l h
  subst hL
  simp only [List.map_cons, List.map_nil]
  rw [clsOf_digit c0 d0, clsOf_digit c1 d1, clsOf_digit c2 d2, clsOf_digit c3 d3,
    clsOf_digit c4 d4, clsOf_digit c5 d5, clsOf_digit c6 d6, clsOf_digit c7 d7,
    clsOf_digit c9 d9, clsOf_digit c10 d10, clsOf_digit c11 d11, clsOf_digit c12 d12,
    clsOf_digit c13 d13, clsOf_digit c14 d14]
  rfl

theorem cls_isToken (l : List Char) (h : l.map clsOf = tokCls) : isToken l = true := by
  rcases l with _ | ⟨c0, l⟩; · simp [tokCls] at h
  rcases l with _ | ⟨c1, l⟩; · simp [tokCls] at h
  rcases l with _ | ⟨c2, l⟩; · simp [tokCls] at h
  rcases l with _ | ⟨c3, l⟩; · simp [tokCls] at h
  rcases l with _ | ⟨c4, l⟩; · simp [tokCls] at h
  rcases l with _ | ⟨c5, l⟩; · simp [tokCls] at h
  rcases l with _ | ⟨c6, l⟩; · simp [tokCls] at h
  rcases l with _ | ⟨c7, l⟩; · simp [tokCls] at h
  rcases l with _ | ⟨c8, l⟩; · simp [tokCls] at h
  rcases l with _ | ⟨c9, l⟩; · simp [tokCls] at h
  rcases l with _ | ⟨c10, l⟩; · simp [tokCls] at h
  rcases l with _ | ⟨c11, l⟩; · simp [tokCls] at h
  rcases l with _ | ⟨c12, l⟩; · simp [tokCls] at h
  rcases l with _ | ⟨c13, l⟩; · simp [tokCls] at h
  rcases l with _ | ⟨c14, l⟩; · simp [tokCls] at h
  rcases l with _ | ⟨c15, l⟩
  · simp only [List.map_cons, List.map_nil, tokCls, List.cons.injEq, and_true] at h
    obtain ⟨e0, e1, e2, e3, e4, e5, e6, e7, e8, e9, e10, e11, e12, e13, e14⟩ := h
    have hT := tsep_of_clsOf c8 e8
    subst hT
    simp only [isToken]
    rw [digit_of_clsOf c0 e0, digit_of_clsOf c1 e1, digit_of_clsOf c2 e2,
      digit_of_clsOf c3 e3, digit_of_clsOf c4 e4, digit_of_clsOf c5 e5,
      digit_of_clsOf c6 e6, digit_of_clsOf c7 e7, digit_of_clsOf c9 e9,
      digit_of_clsOf c10 e10, digit_of_clsOf c11 e11, digit_of_clsOf c12 e12,
      digit_of_clsOf c13 e13, digit_of_clsOf c14 e14]
    rfl
  · simp [tokCls] at h

theorem isToken_eq_of_cls (l₁ l₂ : List Char) (h : l₁.map clsOf = l₂.map clsOf) :
    isToken l₁ = isToken l₂ := by
  by_cases h1 : isToken l₁ = true
  · rw [h1, Eq.comm]
    exact cls_isToken l₂ (h ▸ isToken_cls l₁ h1)
  · by_cases h2 : isToken l₂ = true
    · exact absurd (cls_isToken l₁ (h.symm ▸ isToken_cls l₂ h2)) h1
    · rw [Bool.eq_false_iff.mpr h1, Bool.eq_false_iff.mpr h2]

theorem tryMatch_none_of_cls (l₁ l₂ : List Char) (h : l₁.map clsOf = l₂.map clsOf)
    (hn : tryMatch l₁ = none) : tryMatch l₂ = none := by
  rw [tryMatch] at hn ⊢
  split at hn
  · exact Option.noConfusion hn
  · rename_i ht1
    split
    · rename_i ht2
      exfalso
      apply ht1
      rw [show isToken (l₁.take 15) = isToken (l₂.take 15) from
        isToken_eq_of_cls _ _ (by rw [List.map_take, List.map_take, h])]
      exact ht2
    · rfl

theorem findAllF_irrel (fuel₁ : Nat) : ∀ (fuel₂ : Nat) (l : List Char),
    l.length ≤ fuel₁ → l.length ≤ fuel₂ → findAllF fuel₁ l = findAllF fuel₂ l := by
  induction fuel₁ with
  | zero =>
    intro fuel₂ l h1 h2
    have hl : l = [] := List.eq_nil_of_length_eq_zero (by omega)
    subst hl
    cases fuel₂ <;> rfl
  | succ fuel ih =>
    intro fuel₂ l h1 h2
    cases l with
    | nil => cases fuel₂ <;> rfl
    | cons c cs =>
      have hc : (c :: cs).length = cs.length + 1 := rfl
      cases fuel₂ with
      | zero => omega
      | succ fuel₂ =>
        cases htm : tryMatch (c :: cs) with
        | some pr =>
          obtain ⟨tok, rest⟩ := pr
          obtain ⟨ht1, ht2, ht3⟩ := tryMatch_some _ _ _ htm
          have hlen3 := congrArg List.length ht3
          simp only [List.length_cons, List.length_append, ht2] at hlen3
          simp only [findAllF, htm]
          rw [ih fuel₂ rest (by omega) (by omega)]
        | none =>
          simp only [findAllF, htm]
          exact ih fuel₂ cs (by omega) (by omega)

theorem splitTokensF_irrel (fuel₁ : Nat) : ∀ (fuel₂ : Nat) (l : List Char),
    l.length ≤ fuel₁ → l.length ≤ fuel₂ → splitTokensF fuel₁ l = splitTokensF fuel₂ l := by
  induction fuel₁ with
  | zero =>
    intro fuel₂ l h1 h2
    have hl : l = [] := List.eq_nil_of_length_eq_zero (by omega)
    subst hl
    cases fuel₂ <;> rfl
  | succ fuel ih =>
    intro fuel₂ l h1 h2
    cases l with
    | nil => cases fuel₂ <;> rfl
    | cons c cs =>
      have hc : (c :: cs).length = cs.length + 1 := rfl
      cases fuel₂ with
      | zero => omega
      | succ fuel₂ =>
        cases htm : tryMatch (c :: cs) with
        | some pr =>
          obtain ⟨tok, rest⟩ := pr
          obtain ⟨ht1, ht2, ht3⟩ := tryMatch_some _ _ _ htm
          have hlen3 := congrArg List.length ht3
          simp only [List.length_cons, List.length_append, ht2] at hlen3
          simp only [splitTokensF, htm]
          rw [ih fuel₂ rest (by omega) (by omega)]
        | none =>
          simp only [splitTokensF, htm]
          rw [ih fuel₂ cs (by omega) (by omega)]

theorem subExceptF_irrel (f : List Char → Except ShiftErr (List Char)) (fuel₁ : Nat) :
    ∀ (fuel₂ : Nat) (l : List Char),
    l.length ≤ fuel₁ → l.length ≤ fuel₂ → subExceptF f fuel₁ l = subExceptF f fuel₂ l := by
  induction fuel₁ with
  | zero =>
    intro fuel₂ l h1 h2
    have hl : l = [] := List.eq_nil_of_length_eq_zero (by omega)
    subst hl
    cases fuel₂ <;> rfl
  | succ fuel ih =>
    intro fuel₂ l h1 h2
    cases l with
    | nil => cases fuel₂ <;> rfl
    | cons c cs =>
      have hc : (c :: cs).length = cs.length + 1 := rfl
      cases fuel₂ with
      | zero => omega
      | succ fuel₂ =>
        cases htm : tryMatch (c :: cs) with
        | some pr =>
          obtain ⟨tok, rest⟩ := pr
          obtain ⟨ht1, ht2, ht3⟩ := tryMatch_some _ _ _ htm
          have hlen3 := congrArg List.length ht3
          simp only [List.length_cons, List.length_append, ht2] at hlen3
          simp only [subExceptF, htm]
          rw [ih fuel₂ rest (by omega) (by omega)]
        | none =>
          simp only [subExceptF, htm]
          rw [ih fuel₂ cs (by omega) (by omega)]

theorem findAll_nil : findAll [] = [] := rfl

theorem findAll_cons_some (c : Char) (cs tok rest : List Char)
    (h : tryMatch (c :: cs) = some (tok, rest)) :
    findAll (c :: cs) = tok :: findAll rest := by
  obtain ⟨ht1, ht2, ht3⟩ := tryMatch_some _ _ _ h
  have hlen3 := congrArg List.length ht3
  simp only [List.length_cons, List.length_append, ht2] at hlen3
  simp only [findAll, List.length_cons]
  simp only [findAllF, h]
  rw [findAllF_irrel cs.length rest.length rest (by omega) (by omega)]

theorem findAll_cons_none (c : Char) (cs : List Char) (h : tryMatch (c :: cs) = none) :
    findAll (c :: cs) = findAll cs := by
  simp only [findAll, List.length_cons]
  simp only [findAllF, h]

theorem splitTokens_nil : splitTokens [] = [] := rfl

theorem splitTokens_cons_some (c : Char) (cs tok rest : List Char)
    (h : tryMatch (c :: cs) = some (tok, rest)) :
    splitTokens (c :: cs) = Sum.inr tok :: splitTokens rest := by
  obtain ⟨ht1, ht2, ht3⟩ := tryMatch_some _ _ _ h
  have hlen3 := congrArg List.length ht3
  simp only [List.length_cons, List.length_append, ht2] at hlen3
  simp only [splitTokens, List.length_cons]
  simp only [splitTokensF, h]
  rw [splitTokensF_irrel cs.length rest.length rest (by omega) (by omega)]

theorem splitTokens_cons_none (c : Char) (cs : List Char) (h : tryMatch (c :: cs) = none) :
    splitTokens (c :: cs) = Sum.inl c :: splitTokens cs := by
  simp only [splitTokens, List.length_cons]
  simp only [splitTokensF, h]

theorem subExcept_nil (f : List Char → Except ShiftErr (List Char)) :
    subExcept f [] = Except.ok [] := rfl

theorem subExcept_cons_some (f : List Char → Except ShiftErr (List Char)) (c : Char)
    (cs tok rest : List Char) (h : tryMatch (c :: cs) = some (tok, rest)) :
    subExcept f (c :: cs) =
      match f tok with
      | Except.error e => Except.error e
      | Except.ok r =>
        match subExcept f rest with
        | Except.error e => Except.error e
        | Except.ok tail => Except.ok (r ++ tail) := by
  obtain ⟨ht1, ht2, ht3⟩ := tryMatch_some _ _ _ h
  have hlen3 := congrArg List.length ht3
  simp only [List.length_cons, List.length_append, ht2] at hlen3
  simp only [subExcept, List.length_cons]
  simp only [subExceptF, h]
  rw [subExceptF_irrel f cs.length rest.length rest (by omega) (by omega)]

theorem subExcept_cons_none (f : List Char → Except ShiftErr (List Char)) (c : Char)
    (cs : List Char) (h : tryMatch (c :: cs) = none) :
    subExcept f (c :: cs) =
      match subExcept f cs with
      | Except.error e => Except.error e
      | Except.ok tail => Except.ok (c :: tail) := by
  simp only [subExcept, List.length_cons]
  simp only [subExceptF, h]

theorem findAll_match_some (l tok rest : List Char) (h : tryMatch l = some (tok, rest)) :
    findAll l = tok :: findAll rest := by
  obtain ⟨ht1, ht2, ht3⟩ := tryMatch_some _ _ _ h
  cases l with
  | nil =>
    have := congrArg List.length ht3
    simp only [List.length_nil, List.length_append, ht2] at this
    omega
  | cons c cs => exact findAll_cons_some c cs tok rest h

theorem splitTokens_match_some (l tok rest : List Char) (h : tryMatch l = some (tok, rest)) :
    splitTokens l = Sum.inr tok :: splitTokens rest := by
  obtain ⟨ht1, ht2, ht3⟩ := tryMatch_some _ _ _ h
  cases l with
  | nil =>
    have := congrArg List.length ht3
    simp only [List.length_nil, List.length_append, ht2] at this
    omega
  | cons c cs => exact splitTokens_cons_some c cs tok rest h

theorem subExcept_match_some (f : List Char → Except ShiftErr (List Char)) (l tok rest : List Char)
    (h : tryMatch l = some (tok, rest)) :
    subExcept f l =
      match f tok with
      | Except.error e => Except.error e
      | Except.ok r =>
        match subExcept f rest with
        | Except.error e => Except.error e
        | Except.ok tail => Except.ok (r ++ tail) := by
  obtain ⟨ht1, ht2, ht3⟩ := tryMatch_some _ _ _ h
  cases l with
  | nil =>
    have := congrArg List.length ht3
    simp only [List.length_nil, List.length_append, ht2] at this
    omega
  | cons c cs => exact subExcept_cons_some f c cs tok rest h

/-- A replacement function that maps tokens to tokens (the shifted re-encoding
always has the token shape). -/
def TokPres (g : List Char → List Char) : Prop :=
  ∀ tok, isToken tok = true → isToken (g tok) = true

theorem renderWith_id_aux (n : Nat) : ∀ l : List Char, l.length ≤ n →
    renderWith (fun t => t) (splitTokens l) = l := by
  induction n with
  | zero =>
    intro l h
    have hl : l = [] := List.eq_nil_of_length_eq_zero (by omega)
    subst hl
    rfl
  | succ n ih =>
    intro l h
    cases l with
    | nil => rfl
    | cons c cs =>
      have hc : (c :: cs).length = cs.length + 1 := rfl
      cases htm : tryMatch (c :: cs) with
      | some pr =>
        obtain ⟨tok, rest⟩ := pr
        obtain ⟨ht1, ht2, ht3⟩ := tryMatch_some _ _ _ htm
        have hlen3 := congrArg List.length ht3
        simp only [List.length_cons, List.length_append, ht2] at hlen3
        rw [splitTokens_cons_some c cs tok rest htm]
        simp only [renderWith]
        rw [ih rest (by omega)]
        exact ht3.symm
      | none =>
        rw [splitTokens_cons_none c cs htm]
        simp only [renderWith]
        rw [ih cs (by omega)]

/-- `splitTokens` is a faithful decomposition of the document. -/
theorem renderWith_id (l : List Char) : renderWith (fun t => t) (splitTokens l) = l :=
  renderWith_id_aux l.length l le_rfl

theorem cls_renderWith_aux (g : List Char → List Char) (hg : TokPres g) (n : Nat) :
    ∀ l : List Char, l.length ≤ n →
    (renderWith g (splitTokens l)).map clsOf = l.map clsOf := by
  induction n with
  | zero =>
    intro l h
    have hl : l = [] := List.eq_nil_of_length_eq_zero (by omega)
    subst hl
    rfl
  | succ n ih =>
    intro l h
    cases l with
    | nil => rfl
    | cons c cs =>
      have hc : (c :: cs).length = cs.length + 1 := rfl
      cases htm : tryMatch (c :: cs) with
      | some pr =>
        obtain ⟨tok, rest⟩ := pr
        obtain ⟨ht1, ht2, ht3⟩ := tryMatch_some _ _ _ htm
        have hlen3 := congrArg List.length ht3
        simp only [List.length_cons, List.length_append, ht2] at hlen3
        rw [splitTokens_cons_some c cs tok rest htm]
        simp only [renderWith]
        rw [ht3, List.map_append, List.map_append, ih rest (by omega),
          isToken_cls _ ht1, isToken_cls _ (hg tok ht1)]
      | none =>
        rw [splitTokens_cons_none c cs htm]
        simp only [renderWith, List.map_cons]
        rw [ih cs (by omega)]

/-- Replacing every match by a token leaves the class of every character
position unchanged. -/
theorem cls_renderWith (g : List Char → List Char) (hg : TokPres g) (l : List Char) :
    (renderWith g (splitTokens l)).map clsOf = l.map clsOf :=
  cls_renderWith_aux g hg l.length l le_rfl

/-- Token replacement preserves the length of the document. -/
theorem length_renderWith (g : List Char → List Char) (hg : TokPres g) (l : List Char) :
    (renderWith g (splitTokens l)).length = l.length := by
  have h := congrArg List.length (cls_renderWith g hg l)
  simp only [List.length_map] at h
  exact h

theorem splitTokens_renderWith_aux (g : List Char → List Char) (hg : TokPres g) (n : Nat) :
    ∀ l : List Char, l.length ≤ n →
    splitTokens (renderWith g (splitTokens l)) = (splitTokens l).map (Sum.map id g) := by
  induction n with
  | zero =>
    intro l h
    have hl : l = [] := List.eq_nil_of_length_eq_zero (by omega)
    subst hl
    rfl
  | succ n ih =>
    intro l h
    cases l with
    | nil => rfl
    | cons c cs =>
      have hc : (c :: cs).length = cs.length + 1 := rfl
      cases htm : tryMatch (c :: cs) with
      | some pr =>
        obtain ⟨tok, rest⟩ := pr
        obtain ⟨ht1, ht2, ht3⟩ := tryMatch_some _ _ _ htm
        have hlen3 := congrArg List.length ht3
        simp only [List.length_cons, List.length_append, ht2] at hlen3
        rw [splitTokens_cons_some c cs tok rest htm]
        simp only [renderWith, List.map_cons, Sum.map_inl, Sum.map_inr, id_eq]
        rw [splitTokens_match_some _ (g tok) _ (tryMatch_token _ _ (hg tok ht1))]
        rw [ih rest (by omega)]
      | none =>
        rw [splitTokens_cons_none c cs htm]
        simp only [renderWith, List.map_cons, Sum.map_inl, Sum.map_inr, id_eq]
        have hcls : ((c :: cs).map clsOf) = ((c :: renderWith g (splitTokens cs)).map clsOf) := by
          simp only [List.map_cons]
          rw [cls_renderWith_aux g hg n cs (by omega)]
        rw [splitTokens_cons_none c _ (tryMatch_none_of_cls _ _ hcls htm)]
        rw [ih cs (by omega)]

/-- Scanning a token-substituted document finds exactly the substituted
decomposition. -/
theorem splitTokens_renderWith (g : List Char → List Char) (hg : TokPres g) (l : List Char) :
    splitTokens (renderWith g (splitTokens l)) = (splitTokens l).map (Sum.map id g) :=
  splitTokens_renderWith_aux g hg l.length l le_rfl

theorem findAll_renderWith_aux (g : List Char → List Char) (hg : TokPres g) (n : Nat) :
    ∀ l : List Char, l.length ≤ n →
    findAll (renderWith g (splitTokens l)) = (findAll l).map g := by
  induction n with
  | zero =>
    intro l h
    have hl : l = [] := List.eq_nil_of_length_eq_zero (by omega)
    subst hl
    rfl
  | succ n ih =>
    intro l h
    cases l with
    | nil => rfl
    | cons c cs =>
      have hc : (c :: cs).length = cs.length + 1 := rfl
      cases htm : tryMatch (c :: cs) with
      | some pr =>
        obtain ⟨tok, rest⟩ := pr
        obtain ⟨ht1, ht2, ht3⟩ := tryMatch_some _ _ _ htm
        have hlen3 := congrArg List.length ht3
        simp only [List.length_cons, List.length_append, ht2] at hlen3
        rw [splitTokens_cons_some c cs tok rest htm, findAll_cons_some c cs tok rest htm]
        simp only [renderWith, List.map_cons]
        rw [findAll_match_some _ (g tok) _ (tryMatch_token _ _ (hg tok ht1))]
        rw [ih rest (by omega)]
      | none =>
        rw [splitTokens_cons_none c cs htm, findAll_cons_none c cs htm]
        simp only [renderWith]
        have hcls : ((c :: cs).map clsOf) = ((c :: renderWith g (splitTokens cs)).map clsOf) := by
          simp only [List.map_cons]
          rw [cls_renderWith_aux g hg n cs (by omega)]
        rw [findAll_cons_none c _ (tryMatch_none_of_cls _ _ hcls htm)]
        rw [ih cs (by omega)]

/-- Scanning a token-substituted document finds exactly the substituted
tokens, in order. -/
theorem findAll_renderWith (g : List Char → List Char) (hg : TokPres g) (l : List Char) :
    findAll (renderWith g (splitTokens l)) = (findAll l).map g :=
  findAll_renderWith_aux g hg l.length l le_rfl

/-- Total version of a fallible replacement: on failure keep the match
(used only to describe successful runs). -/
def exceptTotal (f : List Char → Except ShiftErr (List Char)) (x : List Char) : List Char :=
  match f x with
  | Except.ok r => r
  | Except.error _ => x

theorem subExcept_ok_of_forall_aux (f : List Char → Except ShiftErr (List Char)) (n : Nat) :
    ∀ l : List Char, l.length ≤ n →
    (∀ tok ∈ findAll l, ∃ r, f tok = Except.ok r) →
    subExcept f l = Except.ok (renderWith (exceptTotal f) (splitTokens l)) := by
  induction n with
  | zero =>
    intro l h hall
    have hl : l = [] := List.eq_nil_of_length_eq_zero (by omega)
    subst hl
    rfl
  | succ n ih =>
    intro l h hall
    cases l with
    | nil => rfl
    | cons c cs =>
      have hc : (c :: cs).length = cs.length + 1 := rfl
      cases htm : tryMatch (c :: cs) with
      | some pr =>
        obtain ⟨tok, rest⟩ := pr
        obtain ⟨ht1, ht2, ht3⟩ := tryMatch_some _ _ _ htm
        have hlen3 := congrArg List.length ht3
        simp only [List.length_cons, List.length_append, ht2] at hlen3
        rw [findAll_cons_some c cs tok rest htm] at hall
        obtain ⟨r, hr⟩ := hall tok (List.mem_cons_self tok _)
        have hall' : ∀ t ∈ findAll rest, ∃ u, f t = Except.ok u := by
          intro t ht
          exact hall t (List.mem_cons_of_mem _ ht)
        rw [subExcept_cons_some f c cs tok rest htm, hr, ih rest (by omega) hall',
          splitTokens_cons_some c cs tok rest htm]
        simp only [renderWith]
        rw [show exceptTotal f tok = r from by rw [exceptTotal, hr]]
      | none =>
        rw [findAll_cons_none c cs htm] at hall
        rw [subExcept_cons_none f c cs htm, ih cs (by omega) hall,
          splitTokens_cons_none c cs htm]
        rfl

/-- If the replacement function succeeds on every match, `re.sub` succeeds and
returns the reassembled document. -/
theorem subExcept_ok_of_forall (f : List Char → Except ShiftErr (List Char)) (l : List Char)
    (hall : ∀ tok ∈ findAll l, ∃ r, f tok = Except.ok r) :
    subExcept f l = Except.ok (renderWith (exceptTotal f) (splitTokens l)) :=
  subExcept_ok_of_forall_aux f l.length l le_rfl hall

theorem subExcept_forall_of_ok_aux (f : List Char → Except ShiftErr (List Char)) (n : Nat) :
    ∀ (l out : List Char), l.length ≤ n → subExcept f l = Except.ok out →
    ∀ tok ∈ findAll l, ∃ r, f tok = Except.ok r := by
  induction n with
  | zero =>
    intro l out h hok tok htok
    have hl : l = [] := List.eq_nil_of_length_eq_zero (by omega)
    subst hl
    simp only [findAll_nil] at htok
    exact absurd htok (List.not_mem_nil _)
  | succ n ih =>
    intro l out h hok tok htok
    cases l with
    | nil =>
      simp only [findAll_nil] at htok
      exact absurd htok (List.not_mem_nil _)
    | cons c cs =>
      have hc : (c :: cs).length = cs.length + 1 := rfl
      cases htm : tryMatch (c :: cs) with
      | some pr =>
        obtain ⟨tok', rest⟩ := pr
        obtain ⟨ht1, ht2, ht3⟩ := tryMatch_some _ _ _ htm
        have hlen3 := congrArg List.length ht3
        simp only [List.length_cons, List.length_append, ht2] at hlen3
        rw [subExcept_cons_some f c cs tok' rest htm] at hok
        rw [findAll_cons_some c cs tok' rest htm] at htok
        cases hf : f tok' with
        | error e => rw [hf] at hok; exact Except.noConfusion hok
        | ok r =>
          rw [hf] at hok
          cases hrest : subExcept f rest with
          | error e => rw [hrest] at hok; exact Except.noConfusion hok
          | ok tail =>
            rcases List.mem_cons.mp htok with heq | hmem
            · subst heq; exact ⟨r, hf⟩
            · exact ih rest tail (by omega) hrest tok hmem
      | none =>
        rw [subExcept_cons_none f c cs htm] at hok
        rw [findAll_cons_none c cs htm] at htok
        cases hrest : subExcept f cs with
        | error e => rw [hrest] at hok; exact Except.noConfusion hok
        | ok tail => exact ih cs tail (by omega) hrest tok htok

/-- A successful `re.sub` means the replacement succeeded on every match. -/
theorem subExcept_forall_of_ok (f : List Char → Except ShiftErr (List Char)) (l out : List Char)
    (hok : subExcept f l = Except.ok out) :
    ∀ tok ∈ findAll l, ∃ r, f tok = Except.ok r :=
  subExcept_forall_of_ok_aux f l.length l out le_rfl hok

/-- The value a successful `re.sub` returns is the reassembled decomposition. -/
theorem subExcept_ok_out (f : List Char → Except ShiftErr (List Char)) (l out : List Char)
    (hok : subExcept f l = Except.ok out) :
    out = renderWith (exceptTotal f) (splitTokens l) := by
  have h2 := subExcept_ok_of_forall f l (subExcept_forall_of_ok f l out hok)
  rw [hok] at h2
  exact Except.ok.injEq .. ▸ h2

theorem renderWith_map (g₂ g : List Char → List Char) (L : List (Char ⊕ List Char)) :
    renderWith g₂ (L.map (Sum.map id g)) = renderWith (fun t => g₂ (g t)) L := by
  induction L with
  | nil => rfl
  | cons x r ih =>
    cases x with
    | inl c =>
      simp only [List.map_cons, Sum.map_inl, id_eq, renderWith]
      rw [ih]
    | inr t =>
      simp only [List.map_cons, Sum.map_inr, renderWith]
      rw [ih]

theorem renderWith_congr (g₁ g₂ : List Char → List Char) (L : List (Char ⊕ List Char))
    (h : ∀ t, Sum.inr t ∈ L → g₁ t = g₂ t) : renderWith g₁ L = renderWith g₂ L := by
  induction L with
  | nil => rfl
  | cons x r ih =>
    cases x with
    | inl c =>
      simp only [renderWith]
      rw [ih (fun t ht => h t (List.mem_cons_of_mem _ ht))]
    | inr t =>
      simp only [renderWith]
      rw [h t (List.mem_cons_self _ _), ih (fun u hu => h u (List.mem_cons_of_mem _ hu))]

theorem mem_splitTokens_mem_findAll_aux (n : Nat) : ∀ (l t : List Char),
    l.length ≤ n → Sum.inr t ∈ splitTokens l → t ∈ findAll l := by
  induction n with
  | zero =>
    intro l t h hmem
    have hl : l = [] := List.eq_nil_of_length_eq_zero (by omega)
    subst hl
    exact absurd hmem (List.not_mem_nil _)
  | succ n ih =>
    intro l t h hmem
    cases l with
    | nil => exact absurd hmem (List.not_mem_nil _)
    | cons c cs =>
      have hc : (c :: cs).length = cs.length + 1 := rfl
      cases htm : tryMatch (c :: cs) with
      | some pr =>
        obtain ⟨tok, rest⟩ := pr
        obtain ⟨ht1, ht2, ht3⟩ := tryMatch_some _ _ _ htm
        have hlen3 := congrArg List.length ht3
        simp only [List.length_cons, List.length_append, ht2] at hlen3
        rw [splitTokens_cons_some c cs tok rest htm] at hmem
        rw [findAll_cons_some c cs tok rest htm]
        rcases List.mem_cons.mp hmem with heq | hmem'
        · rw [List.mem_cons]
          left
          exact (Sum.inr.injEq .. ▸ heq)
        · exact List.mem_cons_of_mem _ (ih rest t (by omega) hmem')
      | none =>
        rw [splitTokens_cons_none c cs htm] at hmem
        rw [findAll_cons_none c cs htm]
        rcases List.mem_cons.mp hmem with heq | hmem'
        · exact Sum.noConfusion heq
        · exact ih cs t (by omega) hmem'

theorem mem_splitTokens_mem_findAll (l t : List Char) (hmem : Sum.inr t ∈ splitTokens l) :
    t ∈ findAll l :=
  mem_splitTokens_mem_findAll_aux l.length l t le_rfl hmem

theorem mem_findAll_isToken_aux (n : Nat) : ∀ (l t : List Char),
    l.length ≤ n → t ∈ findAll l → isToken t = true := by
  induction n with
  | zero =>
    intro l t h hmem
    have hl : l = [] := List.eq_nil_of_length_eq_zero (by omega)
    subst hl
    exact absurd hmem (List.not_mem_nil _)
  | succ n ih =>
    intro l t h hmem
    cases l with
    | nil => exact absurd hmem (List.not_mem_nil _)
    | cons c cs =>
      have hc : (c :: cs).length = cs.length + 1 := rfl
      cases htm : tryMatch (c :: cs) with
      | some pr =>
        obtain ⟨tok, rest⟩ := pr
        obtain ⟨ht1, ht2, ht3⟩ := tryMatch_some _ _ _ htm
        have hlen3 := congrArg List.length ht3
        simp only [List.length_cons, List.length_append, ht2] at hlen3
        rw [findAll_cons_some c cs tok rest htm] at hmem
        rcases List.mem_cons.mp hmem with heq | hmem'
        · subst heq; exact ht1
        · exact ih rest t (by omega) hmem'
      | none =>
        rw [findAll_cons_none c cs htm] at hmem
        exact ih cs t (by omega) hmem

/-- Every string `re.findall` returns matches the pattern. -/
theorem mem_findAll_isToken (l t : List Char) (hmem : t ∈ findAll l) : isToken t = true :=
  mem_findAll_isToken_aux l.length l t le_rfl hmem

/-! ## The `shift_ics.py` pipeline -/

/-- The 8-digit lexical shape accepted for the target date string. -/
def isYmd : List Char → Bool
  | [c0, c1, c2, c3, c4, c5, c6, c7] =>
    isDig c0 && isDig c1 && isDig c2 && isDig c3 && isDig c4 && isDig c5 &&
    isDig c6 && isDig c7
  | _ => false

/-- `datetime.strptime(s, "%Y%m%d")` for the 8-digit target date string,
returning the day number of the (midnight) date, or `none` on `ValueError`. -/
def parseYmd (l : List Char) : Option Nat :=
  if isYmd l = true ∧ 1 ≤ tokYear l ∧ 1 ≤ tokMonth l ∧ tokMonth l ≤ 12 ∧
     1 ≤ tokDay l ∧ tokDay l ≤ monthLenB (isLeap (tokYear l)) (tokMonth l)
  then some (daysOfDate (tokYear l) (tokMonth l) (tokDay l)) else none

/-- `d.strftime("%Y%m%d")`: the 8-digit encoding of a date. -/
def encodeYmd (day : Nat) : List Char :=
  [dChar ((dateOfDays day).1 / 1000), dChar ((dateOfDays day).1 / 100 % 10),
   dChar ((dateOfDays day).1 / 10 % 10), dChar ((dateOfDays day).1 % 10),
   dChar ((dateOfDays day).2.1 / 10), dChar ((dateOfDays day).2.1 % 10),
   dChar ((dateOfDays day).2.2 / 10), dChar ((dateOfDays day).2.2 % 10)]

/-- Python's `min` over a list of comparables: the least value, or `none`
(a `ValueError`) on the empty list. -/
def listMin : List Nat → Option Nat
  | [] => none
  | x :: xs => some (xs.foldl Nat.min x)

/-- A Python list comprehension over fallible `f`: the first exception aborts. -/
def mapExcept {α β : Type} (f : α → Except ShiftErr β) : List α → Except ShiftErr (List β)
  | [] => Except.ok []
  | x :: xs =>
    match f x with
    | Except.error e => Except.error e
    | Except.ok y =>
      match mapExcept f xs with
      | Except.error e => Except.error e
      | Except.ok ys => Except.ok (y :: ys)

/-- `datetime.strptime(ds, "%Y%m%dT%H%M%S")` as used in the list
comprehension: a `ValueError` becomes the explicit `InvalidDate`. -/
def parseT (ds : List Char) : Except ShiftErr Nat :=
  match parseTok ds with
  | some t => Except.ok t
  | none => Except.error ShiftErr.InvalidDate

/-- Steps 1–2 of the script: scan the document and parse every match. -/
def docDates (doc : List Char) : Except ShiftErr (List Nat) :=
  mapExcept parseT (findAll doc)

/-- The earliest timestamp of the document (`min(dates)`), when defined. -/
def earliestOf (doc : List Char) : Option Nat :=
  match docDates doc with
  | Except.error _ => none
  | Except.ok dates => listMin dates

/-- `if week_type.upper() == "B": target_date += timedelta(days=7)`. -/
def weekOffset (weekType : List Char) : Nat :=
  if weekType.map Char.toUpper = ['B'] then 7 else 0

/-- `shift_date`: re-parse the matched token, add the delta, re-encode.
Python's date arithmetic raises `OverflowError` outside years 1–9999. -/
def shiftDate (delta : Int) (tok : List Char) : Except ShiftErr (List Char) :=
  match parseTok tok with
  | none => Except.error ShiftErr.InvalidDate
  | some t =>
    if 0 ≤ (t : Int) + delta ∧ (t : Int) + delta ≤ (maxSec : Int)
    then Except.ok (formatChars ((t : Int) + delta).toNat)
    else Except.error ShiftErr.OverflowErr

/-- The single shift delta of a run: `target_dt - earliest_date`, where
`target_dt = datetime.combine(target_date.date(), earliest_date.time())`
(the target's own time of day is discarded by `.date()`, and the earliest
timestamp's time of day `earliest % 86400` is carried over). -/
def deltaOf (doc targetStr weekType : List Char) : Option Int :=
  match docDates doc with
  | Except.error _ => none
  | Except.ok dates =>
    match listMin dates, parseYmd targetStr with
    | some e, some t0 =>
      some (((86400 * (t0 + weekOffset weekType) + e % 86400 : Nat) : Int) - (e : Int))
    | _, _ => none

/-- The whole transform of `shift_ics.py`: scan, parse all timestamps, take
the earliest, parse the target date, apply the week offset, build the anchor,
compute the delta, and substitute every timestamp token.  Failures are the
exceptions the script would raise, in the order it would raise them. -/
def shiftICS (doc targetStr weekType : List Char) : Except ShiftErr (List Char) :=
  match docDates doc with
  | Except.error e => Except.error e
  | Except.ok dates =>
    match listMin dates with
    | none => Except.error ShiftErr.NoTimestampsFound
    | some earliest =>
      match parseYmd targetStr with
      | none => Except.error ShiftErr.InvalidDate
      | some target0 =>
        let target := target0 + weekOffset weekType
        let targetDt := 86400 * target + earliest % 86400
        subExcept (shiftDate ((targetDt : Int) - (earliest : Int))) doc

theorem parseT_ok (ds : List Char) (t : Nat) :
    parseT ds = Except.ok t ↔ parseTok ds = some t := by
  rw [parseT]
  cases hp : parseTok ds with
  | none => simp
  | some u => simp

theorem mapExcept_ok_forall {α β : Type} (f : α → Except ShiftErr β) :
    ∀ (l : List α) (ys : List β), mapExcept f l = Except.ok ys →
    ∀ x ∈ l, ∃ y, f x = Except.ok y := by
  intro l
  induction l with
  | nil => intro ys h x hx; exact absurd hx (List.not_mem_nil _)
  | cons a as ih =>
    intro ys h x hx
    simp only [mapExcept] at h
    cases hf : f a with
    | error e => rw [hf] at h; exact Except.noConfusion h
    | ok y =>
      rw [hf] at h
      cases hm : mapExcept f as with
      | error e => rw [hm] at h; exact Except.noConfusion h
      | ok ys' =>
        rcases List.mem_cons.mp hx with heq | hmem
        · subst heq; exact ⟨y, hf⟩
        · exact ih ys' hm x hmem

/-- Value of a fallible computation with a default (used only to state what a
successful `mapExcept` run returned). -/
def exceptValD {α β : Type} (f : α → Except ShiftErr β) (d₀ : β) (x : α) : β :=
  match f x with
  | Except.ok y => y
  | Except.error _ => d₀

theorem mapExcept_ok_map {α β : Type} (f : α → Except ShiftErr β) (d₀ : β) :
    ∀ (l : List α) (ys : List β), mapExcept f l = Except.ok ys →
    ys = l.map (exceptValD f d₀) := by
  intro l
  induction l with
  | nil =>
    intro ys h
    simp only [mapExcept] at h
    injection h with h2
    rw [← h2]
    rfl
  | cons a as ih =>
    intro ys h
    simp only [mapExcept] at h
    cases hf : f a with
    | error e => rw [hf] at h; exact Except.noConfusion h
    | ok y =>
      rw [hf] at h
      cases hm : mapExcept f as with
      | error e => rw [hm] at h; exact Except.noConfusion h
      | ok ys' =>
        rw [hm] at h
        injection h with h2
        rw [← h2, List.map_cons, ih ys' hm]
        rw [show exceptValD f d₀ a = y from by simp only [exceptValD, hf]]

theorem mapExcept_ok_of_forall {α β : Type} (f : α → Except ShiftErr β) (d₀ : β) :
    ∀ l : List α, (∀ x ∈ l, ∃ y, f x = Except.ok y) →
    mapExcept f l = Except.ok (l.map (exceptValD f d₀)) := by
  intro l
  induction l with
  | nil => intro h; rfl
  | cons a as ih =>
    intro h
    obtain ⟨y, hy⟩ := h a (List.mem_cons_self _ _)
    simp only [mapExcept, hy, ih (fun x hx => h x (List.mem_cons_of_mem _ hx)), List.map_cons]
    rw [show exceptValD f d₀ a = y from by simp only [exceptValD, hy]]

theorem mapExcept_error_of_mem {α β : Type} (f : α → Except ShiftErr β) (E : ShiftErr)
    (hall : ∀ x e, f x = Except.error e → e = E) :
    ∀ (l : List α) (x : α), x ∈ l → f x = Except.error E → mapExcept f l = Except.error E := by
  intro l
  induction l with
  | nil => intro x hx; exact absurd hx (List.not_mem_nil _)
  | cons a as ih =>
    intro x hx hfx
    simp only [mapExcept]
    cases hf : f a with
    | error e => rw [hall a e hf]
    | ok y =>
      rcases List.mem_cons.mp hx with heq | hmem
      · subst heq; rw [hf] at hfx; exact Except.noConfusion hfx
      · rw [ih x hmem hfx]

theorem nat_min_left (x y : Nat) (h : x ≤ y) : Nat.min x y = x := by
  simp only [Nat.min]
  exact inf_eq_left.mpr h

theorem nat_min_right (x y : Nat) (h : y ≤ x) : Nat.min x y = y := by
  simp only [Nat.min]
  exact inf_eq_right.mpr h

theorem foldl_min_mem : ∀ (xs : List Nat) (x : Nat), xs.foldl Nat.min x ∈ x :: xs := by
  intro xs
  induction xs with
  | nil =>
    intro x
    simp [List.foldl_nil]
  | cons y ys ih =>
    intro x
    simp only [List.foldl_cons]
    rcases List.mem_cons.mp (ih (Nat.min x y)) with heq | hmem
    · rw [heq]
      rcases Nat.le_total x y with h | h
      · rw [nat_min_left x y h]; exact List.mem_cons_self _ _
      · rw [nat_min_right x y h]
        exact List.mem_cons_of_mem _ (List.mem_cons_self _ _)
    · exact List.mem_cons_of_mem _ (List.mem_cons_of_mem _ hmem)

theorem listMin_mem (l : List Nat) (e : Nat) (h : listMin l = some e) : e ∈ l := by
  cases l with
  | nil => exact Option.noConfusion h
  | cons x xs =>
    simp only [listMin] at h
    injection h with h2
    rw [← h2]
    exact foldl_min_mem xs x

theorem foldl_min_map (f : Nat → Nat) (hf : ∀ a b : Nat, a ≤ b → f a ≤ f b) :
    ∀ (xs : List Nat) (x : Nat), (xs.map f).foldl Nat.min (f x) = f (xs.foldl Nat.min x) := by
  have hmin : ∀ a b : Nat, Nat.min (f a) (f b) = f (Nat.min a b) := by
    intro a b
    rcases Nat.le_total a b with h | h
    · rw [nat_min_left a b h, nat_min_left (f a) (f b) (hf a b h)]
    · rw [nat_min_right a b h, nat_min_right (f a) (f b) (hf b a h)]
  intro xs
  induction xs with
  | nil => intro x; rfl
  | cons y ys ih =>
    intro x
    simp only [List.map_cons, List.foldl_cons]
    rw [hmin x y, ih (Nat.min x y)]

/-- `min` commutes with a monotone map of the values. -/
theorem listMin_map (f : Nat → Nat) (hf : ∀ a b : Nat, a ≤ b → f a ≤ f b) (l : List Nat) :
    listMin (l.map f) = (listMin l).map f := by
  cases l with
  | nil => rfl
  | cons x xs =>
    simp only [List.map_cons, listMin]
    rw [foldl_min_map f hf xs x]
    rfl

theorem shiftDate_ok (d : Int) (tok r : List Char) (h : shiftDate d tok = Except.ok r) :
    ∃ t : Nat, parseTok tok = some t ∧ 0 ≤ (t : Int) + d ∧ (t : Int) + d ≤ (maxSec : Int) ∧
      r = formatChars ((t : Int) + d).toNat := by
  cases hp : parseTok tok with
  | none =>
    simp only [shiftDate, hp] at h
    exact Except.noConfusion h
  | some t =>
    simp only [shiftDate, hp] at h
    split at h
    · rename_i hcond
      injection h with h2
      exact ⟨t, rfl, hcond.1, hcond.2, h2.symm⟩
    · exact Except.noConfusion h

theorem shiftDate_ok_of (d : Int) (tok : List Char) (t : Nat) (hp : parseTok tok = some t)
    (h1 : 0 ≤ (t : Int) + d) (h2 : (t : Int) + d ≤ (maxSec : Int)) :
    shiftDate d tok = Except.ok (formatChars ((t : Int) + d).toNat) := by
  simp only [shiftDate, hp]
  rw [if_pos ⟨h1, h2⟩]

/-- The shifted re-encoding of a token is again a token (whatever the delta). -/
theorem tokPres_shiftTot (d : Int) : TokPres (exceptTotal (shiftDate d)) := by
  intro tok htok
  simp only [exceptTotal]
  cases hs : shiftDate d tok with
  | error e => exact htok
  | ok r =>
    obtain ⟨t, hp, hge, hle, hr⟩ := shiftDate_ok d tok r hs
    subst hr
    have hb : ((t : Int) + d).toNat ≤ maxSec := by omega
    exact (parseTok_isToken _ _ (parseTok_formatChars _ hb)).1

theorem parseTok_shiftTot (d : Int) (tok : List Char) (t : Nat) (hp : parseTok tok = some t)
    (h1 : 0 ≤ (t : Int) + d) (h2 : (t : Int) + d ≤ (maxSec : Int)) :
    parseTok (exceptTotal (shiftDate d) tok) = some ((t : Int) + d).toNat := by
  simp only [exceptTotal, shiftDate_ok_of d tok t hp h1 h2]
  exact parseTok_formatChars _ (by omega)

/-- The parsed value of a token (meaningful when the token parses). -/
def parseVal (tok : List Char) : Nat := (parseTok tok).getD 0

/-- The shifted value of a timestamp: `t + delta` in seconds. -/
def shiftVal (d : Int) (t : Nat) : Nat := ((t : Int) + d).toNat

theorem parseT_val (tok : List Char) : exceptValD parseT 0 tok = parseVal tok := by
  cases hp : parseTok tok <;> simp [exceptValD, parseT, parseVal, hp]

theorem shiftICS_ok_cases (doc ts wt out : List Char) (h : shiftICS doc ts wt = Except.ok out) :
    ∃ (dates : List Nat) (e t0 : Nat),
      docDates doc = Except.ok dates ∧ listMin dates = some e ∧ parseYmd ts = some t0 ∧
      deltaOf doc ts wt =
        some (((86400 * (t0 + weekOffset wt) + e % 86400 : Nat) : Int) - (e : Int)) ∧
      subExcept (shiftDate (((86400 * (t0 + weekOffset wt) + e % 86400 : Nat) : Int) - (e : Int)))
        doc = Except.ok out := by
  cases hdd : docDates doc with
  | error er =>
    simp only [shiftICS, hdd] at h
    exact Except.noConfusion h
  | ok dates =>
    cases hm : listMin dates with
    | none =>
      simp only [shiftICS, hdd, hm] at h
      exact Except.noConfusion h
    | some e =>
      cases hty : parseYmd ts with
      | none =>
        simp only [shiftICS, hdd, hm, hty] at h
        exact Except.noConfusion h
      | some t0 =>
        simp only [shiftICS, hdd, hm, hty] at h
        exact ⟨dates, e, t0, rfl, hm, rfl, by simp only [deltaOf, hdd, hm, hty], h⟩

/-- Full structure of a successful run of the transform. -/
theorem shiftICS_ok_struct (doc ts wt out : List Char) (h : shiftICS doc ts wt = Except.ok out) :
    ∃ (dates : List Nat) (e t0 : Nat) (d : Int),
      docDates doc = Except.ok dates ∧
      listMin dates = some e ∧
      parseYmd ts = some t0 ∧
      d = ((86400 * (t0 + weekOffset wt) + e % 86400 : Nat) : Int) - (e : Int) ∧
      deltaOf doc ts wt = some d ∧
      dates = (findAll doc).map parseVal ∧
      (∀ tok ∈ findAll doc, parseTok tok = some (parseVal tok)) ∧
      (∀ t ∈ dates, 0 ≤ (t : Int) + d ∧ (t : Int) + d ≤ (maxSec : Int)) ∧
      out = renderWith (exceptTotal (shiftDate d)) (splitTokens doc) ∧
      findAll out = (findAll doc).map (exceptTotal (shiftDate d)) ∧
      docDates out = Except.ok (dates.map (shiftVal d)) := by
  obtain ⟨dates, e, t0, hdd, hm, hty, hdelta, hsub⟩ := shiftICS_ok_cases doc ts wt out h
  have hdates : dates = (findAll doc).map parseVal := by
    have h1 := mapExcept_ok_map parseT 0 (findAll doc) dates hdd
    rw [h1]
    exact List.map_congr_left (fun tok _ => parseT_val tok)
  have hptok : ∀ tok ∈ findAll doc, parseTok tok = some (parseVal tok) := by
    intro tok htok
    obtain ⟨y, hy⟩ := mapExcept_ok_forall parseT (findAll doc) dates hdd tok htok
    rw [(parseT_ok tok y).mp hy, parseVal, (parseT_ok tok y).mp hy]
    rfl
  have hrange : ∀ t ∈ dates,
      0 ≤ (t : Int) + (((86400 * (t0 + weekOffset wt) + e % 86400 : Nat) : Int) - (e : Int)) ∧
      (t : Int) + (((86400 * (t0 + weekOffset wt) + e % 86400 : Nat) : Int) - (e : Int))
        ≤ (maxSec : Int) := by
    intro t ht
    rw [hdates] at ht
    obtain ⟨tok, htok, hval⟩ := List.mem_map.mp ht
    obtain ⟨r, hr⟩ := subExcept_forall_of_ok _ doc out hsub tok htok
    obtain ⟨u, hu, hge, hle, _⟩ := shiftDate_ok _ tok r hr
    have huv : u = parseVal tok := by
      rw [parseVal, hu]
      rfl
    rw [← hval, ← huv]
    exact ⟨hge, hle⟩
  have hout := subExcept_ok_out _ doc out hsub
  have hfa : findAll out = (findAll doc).map
      (exceptTotal (shiftDate (((86400 * (t0 + weekOffset wt) + e % 86400 : Nat) : Int)
        - (e : Int)))) := by
    rw [hout]
    exact findAll_renderWith _ (tokPres_shiftTot _) doc
  refine ⟨dates, e, t0, ((86400 * (t0 + weekOffset wt) + e % 86400 : Nat) : Int) - (e : Int),
    hdd, hm, hty, rfl, hdelta, hdates, hptok, hrange, hout, hfa, ?_⟩
  have hshift : ∀ tok ∈ findAll doc,
      exceptTotal (shiftDate (((86400 * (t0 + weekOffset wt) + e % 86400 : Nat) : Int)
        - (e : Int))) tok =
      formatChars (shiftVal (((86400 * (t0 + weekOffset wt) + e % 86400 : Nat) : Int)
        - (e : Int)) (parseVal tok)) := by
    intro tok htok
    have hr := hrange (parseVal tok) (hdates ▸ List.mem_map_of_mem parseVal htok)
    simp only [exceptTotal,
      shiftDate_ok_of _ tok (parseVal tok) (hptok tok htok) hr.1 hr.2]
    rfl
  have hparse2 : ∀ tok ∈ findAll doc,
      parseT (exceptTotal (shiftDate (((86400 * (t0 + weekOffset wt) + e % 86400 : Nat) : Int)
        - (e : Int))) tok) =
      Except.ok (shiftVal (((86400 * (t0 + weekOffset wt) + e % 86400 : Nat) : Int)
        - (e : Int)) (parseVal tok)) := by
    intro tok htok
    rw [hshift tok htok, parseT_ok]
    have hr := hrange (parseVal tok) (hdates ▸ List.mem_map_of_mem parseVal htok)
    exact parseTok_formatChars _ (by rw [shiftVal]; omega)
  rw [docDates, hfa]
  rw [mapExcept_ok_of_forall parseT 0 _ (by
    intro x hx
    obtain ⟨tok, htok, hval⟩ := List.mem_map.mp hx
    exact ⟨_, hval ▸ hparse2 tok htok⟩)]
  congr 1
  rw [List.map_map, hdates, List.map_map]
  refine List.map_congr_left (fun tok htok => ?_)
  simp only [Function.comp_apply]
  rw [show exceptValD parseT 0 (exceptTotal (shiftDate (((86400 * (t0 + weekOffset wt)
    + e % 86400 : Nat) : Int) - (e : Int))) tok) =
      shiftVal (((86400 * (t0 + weekOffset wt) + e % 86400 : Nat) : Int) - (e : Int))
        (parseVal tok) from by
    simp only [exceptValD, hparse2 tok htok]]

theorem ymd_build (a0 a1 a2 a3 a4 a5 a6 a7 : Nat) (L : List Char)
    (hL : L = [dChar a0, dChar a1, dChar a2, dChar a3, dChar a4, dChar a5, dChar a6, dChar a7])
    (h0 : a0 < 10) (h1 : a1 < 10) (h2 : a2 < 10) (h3 : a3 < 10) (h4 : a4 < 10) (h5 : a5 < 10)
    (h6 : a6 < 10) (h7 : a7 < 10) :
    isYmd L = true ∧ tokYear L = 1000 * a0 + 100 * a1 + 10 * a2 + a3 ∧
    tokMonth L = 10 * a4 + a5 ∧ tokDay L = 10 * a6 + a7 := by
  subst hL
  refine ⟨?_, ?_, ?_, ?_⟩
  · simp only [isYmd]
    rw [isDig_dChar a0 h0, isDig_dChar a1 h1, isDig_dChar a2 h2, isDig_dChar a3 h3,
      isDig_dChar a4 h4, isDig_dChar a5 h5, isDig_dChar a6 h6, isDig_dChar a7 h7]
    rfl
  · show 1000 * digitVal (dChar a0) + 100 * digitVal (dChar a1) + 10 * digitVal (dChar a2) +
      digitVal (dChar a3) = 1000 * a0 + 100 * a1 + 10 * a2 + a3
    rw [digitVal_dChar a0 h0, digitVal_dChar a1 h1, digitVal_dChar a2 h2, digitVal_dChar a3 h3]
  · show 10 * digitVal (dChar a4) + digitVal (dChar a5) = 10 * a4 + a5
    rw [digitVal_dChar a4 h4, digitVal_dChar a5 h5]
  · show 10 * digitVal (dChar a6) + digitVal (dChar a7) = 10 * a6 + a7
    rw [digitVal_dChar a6 h6, digitVal_dChar a7 h7]

/-- `strptime("%Y%m%d")` inverts `strftime("%Y%m%d")` on representable days. -/
theorem parseYmd_encodeYmd (day : Nat) (h : day ≤ maxDay) :
    parseYmd (encodeYmd day) = some day := by
  obtain ⟨hy1, hy2, hm1, hm2, hd1, hd2, heq⟩ :=
    daysOfDate_dateOfDays day h (dateOfDays day).1 (dateOfDays day).2.1 (dateOfDays day).2.2 rfl
  have hd31 : (dateOfDays day).2.2 ≤ 31 := le_trans hd2 (monthLenB_le _ _)
  obtain ⟨hymd, hY, hMo, hD⟩ := ymd_build ((dateOfDays day).1 / 1000)
    ((dateOfDays day).1 / 100 % 10) ((dateOfDays day).1 / 10 % 10) ((dateOfDays day).1 % 10)
    ((dateOfDays day).2.1 / 10) ((dateOfDays day).2.1 % 10)
    ((dateOfDays day).2.2 / 10) ((dateOfDays day).2.2 % 10) (encodeYmd day) rfl
    (by omega) (by omega) (by omega) (by omega) (by omega) (by omega) (by omega) (by omega)
  have hY' : tokYear (encodeYmd day) = (dateOfDays day).1 := by rw [hY]; omega
  have hMo' : tokMonth (encodeYmd day) = (dateOfDays day).2.1 := by rw [hMo]; omega
  have hD' : tokDay (encodeYmd day) = (dateOfDays day).2.2 := by rw [hD]; omega
  have hcond : isYmd (encodeYmd day) = true ∧ 1 ≤ tokYear (encodeYmd day) ∧
      1 ≤ tokMonth (encodeYmd day) ∧ tokMonth (encodeYmd day) ≤ 12 ∧
      1 ≤ tokDay (encodeYmd day) ∧ tokDay (encodeYmd day) ≤
        monthLenB (isLeap (tokYear (encodeYmd day))) (tokMonth (encodeYmd day)) := by
    refine ⟨hymd, ?_, ?_, ?_, ?_, ?_⟩
    · rw [hY']; exact hy1
    · rw [hMo']; exact hm1
    · rw [hMo']; exact hm2
    · rw [hD']; exact hd1
    · rw [hY', hMo', hD']; exact hd2
  rw [parseYmd, if_pos hcond, hY', hMo', hD', heq]

/-- The specification's anchor date-time (section 4.1, step 3): the target
date moved by the week offset, carrying the time of day of the earliest
timestamp `e`; the target contributes no time-of-day of its own. -/
def anchorSpec (targetDay weekOffsetDays e : Nat) : Nat :=
  86400 * (targetDay + weekOffsetDays) + e % 86400

/-- The specification's delta (section 4.1, step 4): anchor minus earliest. -/
def deltaSpec (targetDay weekOffsetDays e : Nat) : Int :=
  (anchorSpec targetDay weekOffsetDays e : Int) - (e : Int)

/-! ## `notebooks/delete_today_events.py` -/

/-- A calendar event as the deletion script reads it: its id and summary. -/
structure GEvent where
  eid : List Char
  summary : List Char
deriving DecidableEq

/-- The printed outcome of one iteration of the deletion loop. -/
inductive DelResult
  | deleted (summary : List Char)
  | deleteFailed (summary : List Char) (err : List Char)
deriving DecidableEq

/-- Body of the deletion loop: `try: service.events().delete(...).execute();
print(deleted) except HttpError as error: print(error)` — the exception is
caught and turned into a per-item report. -/
def deleteOne (del : List Char → Except (List Char) Unit) (ev : GEvent) : DelResult :=
  match del ev.eid with
  | Except.ok _ => DelResult.deleted ev.summary
  | Except.error e => DelResult.deleteFailed ev.summary e

/-- The `for event in events` loop of `delete_todays_study_plan_events`. -/
def deleteLoop (del : List Char → Except (List Char) Unit) : List GEvent → List DelResult
  | [] => []
  | ev :: rest => deleteOne del ev :: deleteLoop del rest

/-- `delete_todays_study_plan_events`, with the collaborator calls injected:
a listing error is reported and nothing is deleted; an empty listing returns
after printing; otherwise every event goes through the deletion loop. -/
def delete_todays_study_plan_events (listResult : Except (List Char) (List GEvent))
    (del : List Char → Except (List Char) Unit) : List DelResult :=
  match listResult with
  | Except.error _ => []
  | Except.ok events => if events.isEmpty then [] else deleteLoop del events

theorem deleteLoop_length (del : List Char → Except (List Char) Unit) :
    ∀ events : List GEvent, (deleteLoop del events).length = events.length := by
  intro events
  induction events with
  | nil => rfl
  | cons ev rest ih =>
    simp only [deleteLoop, List.length_cons, ih]

theorem deleteLoop_getD (del : List Char → Except (List Char) Unit) :
    ∀ (events : List GEvent) (i : Nat), i < events.length →
    (deleteLoop del events).getD i (DelResult.deleted []) =
      deleteOne del (events.getD i ⟨[], []⟩) := by
  intro events
  induction events with
  | nil => intro i hi; simp at hi
  | cons ev rest ih =>
    intro i hi
    cases i with
    | zero => rfl
    | succ j =>
      simp only [deleteLoop, List.getD_cons_succ]
      exact ih j (by simp only [List.length_cons] at hi; omega)

/-! ## `todays_studying.py` -/

/-- A calendar event for the study-hours calculators: its start and end
instants, in seconds. -/
structure SEvent where
  startSec : ℚ
  endSec : ℚ
deriving DecidableEq

/-- `get_all_studying_hours`: the total of `(end - start).total_seconds()/3600`
over the events listed for the day. -/
def get_all_studying_hours (events : List SEvent) : ℚ :=
  events.foldl (fun total ev => total + (ev.endSec - ev.startSec) / 3600) 0

/-- `get_studying_hours_completed_today` with the wall clock injected: an
event is added only when `end_time <= now`, so an event still in progress
contributes nothing. -/
def get_studying_hours_completed_today (now : ℚ) (events : List SEvent) : ℚ :=
  events.foldl (fun total ev =>
    if ev.endSec ≤ now then total + (ev.endSec - ev.startSec) / 3600 else total) 0

theorem hours_foldl_le (now : ℚ) : ∀ (events : List SEvent) (a b : ℚ), a ≤ b →
    (∀ ev ∈ events, ev.startSec ≤ ev.endSec) →
    events.foldl (fun total ev =>
      if ev.endSec ≤ now then total + (ev.endSec - ev.startSec) / 3600 else total) a ≤
    events.foldl (fun total ev => total + (ev.endSec - ev.startSec) / 3600) b := by
  intro events
  induction events with
  | nil =>
    intro a b hab _
    simpa using hab
  | cons ev rest ih =>
    intro a b hab hall
    simp only [List.foldl_cons]
    apply ih
    · have hnn : 0 ≤ (ev.endSec - ev.startSec) / 3600 := by
        have := hall ev (List.mem_cons_self _ _)
        have h36 : (0 : ℚ) < 3600 := by norm_num
        apply div_nonneg (by linarith) (by norm_num)
      split <;> linarith
    · intro x hx
      exact hall x (List.mem_cons_of_mem _ hx)

/-! ## The claims -/

/-- Claim C3: for every document with at least one timestamp, the anchor
date-time used for the delta is `targetDate + weekOffsetDays` days combined
with the time of day of the earliest parsed timestamp (the target itself
contributes no time of day, `%Y%m%d` parsing and `.date()` both give
midnight), and the delta is `anchor − earliest`. -/
theorem claim_C3 (doc ts wt : List Char) (d : Int) (T e : Nat)
    (hd : deltaOf doc ts wt = some d) (hT : parseYmd ts = some T)
    (he : earliestOf doc = some e) :
    d = deltaSpec T (weekOffset wt) e ∧
    anchorSpec T (weekOffset wt) e / 86400 = T + weekOffset wt ∧
    anchorSpec T (weekOffset wt) e % 86400 = e % 86400 := by
  cases hdd : docDates doc with
  | error er =>
    simp only [earliestOf, hdd] at he
    exact Option.noConfusion he
  | ok dates =>
    simp only [earliestOf, hdd] at he
    simp only [deltaOf, hdd, he, hT] at hd
    injection hd with hd2
    refine ⟨?_, by rw [anchorSpec]; omega, by rw [anchorSpec]; omega⟩
    rw [← hd2, deltaSpec, anchorSpec]

/-- Witness for C3 at the specification's worked example with week B. -/
theorem claim_C3_witness :
    deltaOf "20240101T090000 ... 20240102T100000".data "20250310".data ['B']
        = some 38102400 ∧
    parseYmd "20250310".data = some 739319 ∧
    earliestOf "20240101T090000 ... 20240102T100000".data = some 63839696400 ∧
    (38102400 : Int) = deltaSpec 739319 (weekOffset ['B']) 63839696400 :=
  ⟨rfl, rfl, rfl,
    (claim_C3 "20240101T090000 ... 20240102T100000".data "20250310".data ['B']
      38102400 739319 63839696400 rfl rfl rfl).1⟩

/-- Claim C4: a document with no match of the timestamp pattern makes the
transform fail with the explicit `NoTimestampsFound` error (an empty `min`),
reported to the caller. -/
theorem claim_C4 (doc ts wt : List Char) (h : findAll doc = []) :
    shiftICS doc ts wt = Except.error ShiftErr.NoTimestampsFound := by
  have hdd : docDates doc = Except.ok [] := by
    rw [docDates, h]
    rfl
  simp only [shiftICS, hdd]
  rfl

/-- Witness for C4 on a document with no timestamp token. -/
theorem claim_C4_witness :
    findAll "hello world".data = [] ∧
    shiftICS "hello world".data "20250310".data ['A']
      = Except.error ShiftErr.NoTimestampsFound :=
  ⟨rfl, claim_C4 "hello world".data "20250310".data ['A'] rfl⟩

/-- Claim C5: a substring matching the lexical pattern but encoding an
impossible date or time makes the transform fail with `InvalidDate`
at parse time. -/
theorem claim_C5 (doc ts wt tok : List Char) (hmem : tok ∈ findAll doc)
    (hbad : parseTok tok = none) :
    shiftICS doc ts wt = Except.error ShiftErr.InvalidDate := by
  have herr : docDates doc = Except.error ShiftErr.InvalidDate := by
    rw [docDates]
    refine mapExcept_error_of_mem parseT ShiftErr.InvalidDate ?_ (findAll doc) tok hmem ?_
    · intro x er hx
      rw [parseT] at hx
      cases hp : parseTok x with
      | some u => rw [hp] at hx; exact Except.noConfusion hx
      | none =>
        rw [hp] at hx
        injection hx with hx2
        exact hx2.symm
    · rw [parseT, hbad]
  simp only [shiftICS, herr]

/-- Witness for C5: February 31 matches the pattern but is no date. -/
theorem claim_C5_witness :
    "20240231T000000".data ∈ findAll "20240231T000000".data ∧
    parseTok "20240231T000000".data = none ∧
    shiftICS "20240231T000000".data "20250310".data ['A']
      = Except.error ShiftErr.InvalidDate := by
  have hmem : "20240231T000000".data ∈ findAll "20240231T000000".data := by
    rw [show findAll "20240231T000000".data = ["20240231T000000".data] from rfl]
    exact List.mem_singleton.mpr rfl
  exact ⟨hmem, rfl, claim_C5 _ "20250310".data ['A'] _ hmem rfl⟩

/-- Claim C7: with the same document and target, the week-B delta is exactly
seven days (604800 seconds) larger than the week-A delta. -/
theorem claim_C7 (doc ts : List Char) (dA dB : Int)
    (hA : deltaOf doc ts ['A'] = some dA) (hB : deltaOf doc ts ['B'] = some dB) :
    dB = dA + 7 * 86400 := by
  cases hdd : docDates doc with
  | error er =>
    simp only [deltaOf, hdd] at hA
    exact Option.noConfusion hA
  | ok dates =>
    cases hm : listMin dates with
    | none =>
      simp only [deltaOf, hdd, hm] at hA
      exact Option.noConfusion hA
    | some e =>
      cases hty : parseYmd ts with
      | none =>
        simp only [deltaOf, hdd, hm, hty] at hA
        exact Option.noConfusion hA
      | some t0 =>
        simp only [deltaOf, hdd, hm, hty] at hA hB
        injection hA with hA2
        injection hB with hB2
        rw [← hA2, ← hB2,
          show weekOffset ['B'] = 7 from rfl, show weekOffset ['A'] = 0 from rfl]
        omega

/-- Witness for C7 at the specification's worked example: the week-A delta is
37497600 s and the week-B delta 38102400 s, exactly 604800 s apart. -/
theorem claim_C7_witness :
    deltaOf "20240101T090000 ... 20240102T100000".data "20250310".data ['A']
        = some 37497600 ∧
    deltaOf "20240101T090000 ... 20240102T100000".data "20250310".data ['B']
        = some 38102400 ∧
    (38102400 : Int) = 37497600 + 7 * 86400 :=
  ⟨rfl, rfl,
    claim_C7 "20240101T090000 ... 20240102T100000".data "20250310".data
      37497600 38102400 rfl rfl⟩

/-- Claim C8: the bulk deletion handles every event with per-item error
isolation: processing is a loop whose body catches the failure of one
deletion, so each listed event gets a report and a failure does not abort
the remaining deletions. -/
theorem claim_C8 (del : List Char → Except (List Char) Unit) (listedEvents : List GEvent)
    (hne : listedEvents ≠ []) :
    delete_todays_study_plan_events (Except.ok listedEvents) del = deleteLoop del listedEvents ∧
    (deleteLoop del listedEvents).length = listedEvents.length ∧
    ∀ i, i < listedEvents.length →
      (deleteLoop del listedEvents).getD i (DelResult.deleted []) =
        deleteOne del (listedEvents.getD i ⟨[], []⟩) := by
  refine ⟨?_, deleteLoop_length del listedEvents, deleteLoop_getD del listedEvents⟩
  cases listedEvents with
  | nil => exact absurd rfl hne
  | cons ev rest => rfl

/-- A deletion collaborator that fails on event id `a` only. -/
def delW : List Char → Except (List Char) Unit :=
  fun eid => if eid = ['a'] then Except.error ['E'] else Except.ok ()

/-- Two events, the first of which will fail to delete. -/
def evsW : List GEvent := [⟨['a'], ['A']⟩, ⟨['b'], ['B']⟩]

/-- Witness for C8: after the first deletion fails, the second event is still
processed and deleted. -/
theorem claim_C8_witness :
    evsW ≠ [] ∧ 1 < evsW.length ∧
    (deleteLoop delW evsW).getD 1 (DelResult.deleted []) = deleteOne delW (evsW.getD 1 ⟨[], []⟩) ∧
    deleteLoop delW evsW = [DelResult.deleteFailed ['A'] ['E'], DelResult.deleted ['B']] := by
  have hne : evsW ≠ [] := by
    intro hcon
    exact List.noConfusion hcon
  exact ⟨hne, by decide, (claim_C8 delW evsW hne).2.2 1 (by decide), rfl⟩

/-- Claim C10 as stated is false on the code: an event whose end precedes its
start and which is still in progress contributes a negative duration to the
scheduled total but nothing to the completed total, so completed exceeds
scheduled.  Concretely: one event with start 10 s, end 5 s, now 3 s. -/
theorem claim_C10_counterexample :
    ¬ (get_studying_hours_completed_today 3 [⟨10, 5⟩] ≤ get_all_studying_hours [⟨10, 5⟩]) := by
  norm_num [get_studying_hours_completed_today, get_all_studying_hours]

/-- Claim C10, amended: when every event ends no earlier than it starts, the
completed-hours total never exceeds the scheduled-hours total (an event still
in progress contributes zero to the completed total). -/
theorem claim_C10_amended_le (now : ℚ) (events : List SEvent)
    (h : ∀ ev ∈ events, ev.startSec ≤ ev.endSec) :
    get_studying_hours_completed_today now events ≤ get_all_studying_hours events := by
  rw [get_studying_hours_completed_today, get_all_studying_hours]
  exact hours_foldl_le now events 0 0 le_rfl h

/-- Witness for the amended C10 on a one-hour event finished before `now`. -/
theorem claim_C10_witness :
    (∀ ev ∈ ([⟨0, 3600⟩] : List SEvent), ev.startSec ≤ ev.endSec) ∧
    get_studying_hours_completed_today 7200 [⟨0, 3600⟩] ≤ get_all_studying_hours [⟨0, 3600⟩] := by
  have h : ∀ ev ∈ ([⟨0, 3600⟩] : List SEvent), ev.startSec ≤ ev.endSec := by
    intro ev hev
    rw [List.mem_singleton.mp hev]
    norm_num
  exact ⟨h, claim_C10_amended_le 7200 [⟨0, 3600⟩] h⟩

theorem getD_map_shiftVal (d : Int) (dates : List Nat) (k : Nat) (hk : k < dates.length) :
    (dates.map (shiftVal d)).getD k 0 = shiftVal d (dates.getD k 0) := by
  rw [List.getD_eq_getElem _ _ (by rw [List.length_map]; exact hk), List.getElem_map,
    List.getD_eq_getElem _ _ hk]

/-- Claim C2: one constant delta is applied to every token, so pairwise
differences of the shifted timestamp values equal the original pairwise
differences exactly. -/
theorem claim_C2 (doc ts wt out : List Char) (h : shiftICS doc ts wt = Except.ok out)
    (ds ds' : List Nat) (hds : docDates doc = Except.ok ds)
    (hds' : docDates out = Except.ok ds') (i j : Nat) (hi : i < ds.length)
    (hj : j < ds.length) :
    ds'.length = ds.length ∧
    (ds'.getD i 0 : Int) - (ds'.getD j 0 : Int) = (ds.getD i 0 : Int) - (ds.getD j 0 : Int) := by
  obtain ⟨dates, e, t0, d, hdd, hm, hty, hdval, hdelta, hdates, hptok, hrange, hout, hfa, hdout⟩ :=
    shiftICS_ok_struct doc ts wt out h
  rw [hdd] at hds
  injection hds with hds2
  rw [hdout] at hds'
  injection hds' with hds2'
  rw [← hds2] at hi hj
  rw [← hds2, ← hds2']
  refine ⟨by rw [List.length_map], ?_⟩
  rw [getD_map_shiftVal d dates i hi, getD_map_shiftVal d dates j hj]
  have h1 := hrange (dates.getD i 0) (by
    rw [List.getD_eq_getElem _ _ hi]
    exact List.getElem_mem hi)
  have h2 := hrange (dates.getD j 0) (by
    rw [List.getD_eq_getElem _ _ hj]
    exact List.getElem_mem hj)
  rw [shiftVal, shiftVal]
  omega

/-- Witness for C2 at the specification's worked example. -/
theorem claim_C2_witness :
    shiftICS "20240101T090000 ... 20240102T100000".data "20250310".data ['A']
        = Except.ok "20250310T090000 ... 20250311T100000".data ∧
    docDates "20240101T090000 ... 20240102T100000".data
        = Except.ok [63839696400, 63839786400] ∧
    docDates "20250310T090000 ... 20250311T100000".data
        = Except.ok [63877194000, 63877284000] ∧
    (0 : Nat) < 2 ∧ (1 : Nat) < 2 ∧
    (63877194000 : Int) - (63877284000 : Int) = (63839696400 : Int) - (63839786400 : Int) := by
  refine ⟨rfl, rfl, rfl, by omega, by omega, ?_⟩
  have h := claim_C2 "20240101T090000 ... 20240102T100000".data "20250310".data ['A']
    "20250310T090000 ... 20250311T100000".data rfl
    [63839696400, 63839786400] [63877194000, 63877284000] rfl rfl 0 1
    (by decide) (by decide)
  exact h.2

theorem formatChars_drop9 (x : Nat) :
    (formatChars x).drop 9 =
      [dChar (x % 86400 / 3600 / 10), dChar (x % 86400 / 3600 % 10),
       dChar (x % 86400 % 3600 / 60 / 10), dChar (x % 86400 % 3600 / 60 % 10),
       dChar (x % 86400 % 60 / 10), dChar (x % 86400 % 60 % 10)] := rfl

/-- Claim C9: because the anchor carries the earliest timestamp's own time of
day, the delta is a whole number of days, and every output token keeps the
`HHMMSS` characters of its input token unchanged. -/
theorem claim_C9 (doc ts wt out : List Char) (h : shiftICS doc ts wt = Except.ok out) :
    ∃ d : Int, deltaOf doc ts wt = some d ∧ d % 86400 = 0 ∧
      (findAll out).length = (findAll doc).length ∧
      ∀ i, i < (findAll doc).length →
        ((findAll out).getD i []).drop 9 = ((findAll doc).getD i []).drop 9 := by
  obtain ⟨dates, e, t0, d, hdd, hm, hty, hdval, hdelta, hdates, hptok, hrange, hout, hfa, hdout⟩ :=
    shiftICS_ok_struct doc ts wt out h
  have hdays : d % 86400 = 0 := by
    rw [hdval]
    omega
  refine ⟨d, hdelta, hdays, by rw [hfa, List.length_map], ?_⟩
  intro i hi
  have hgd : (findAll out).getD i [] =
      exceptTotal (shiftDate d) ((findAll doc).getD i []) := by
    rw [hfa, List.getD_eq_getElem _ _ (by rw [List.length_map]; exact hi), List.getElem_map,
      List.getD_eq_getElem _ _ hi]
  have hmem : (findAll doc).getD i [] ∈ findAll doc := by
    rw [List.getD_eq_getElem _ _ hi]
    exact List.getElem_mem hi
  have hp := hptok _ hmem
  have hr := hrange (parseVal ((findAll doc).getD i []))
    (hdates ▸ List.mem_map_of_mem parseVal hmem)
  rw [hgd]
  rw [show exceptTotal (shiftDate d) ((findAll doc).getD i []) =
      formatChars (shiftVal d (parseVal ((findAll doc).getD i []))) from by
    simp only [exceptTotal, shiftDate_ok_of d _ _ hp hr.1 hr.2]
    rfl]
  rw [formatChars_drop9]
  rw [show shiftVal d (parseVal ((findAll doc).getD i [])) % 86400 =
      parseVal ((findAll doc).getD i []) % 86400 from by
    rw [shiftVal]
    omega]
  conv_rhs =>
    rw [show (findAll doc).getD i [] =
        formatChars (parseVal ((findAll doc).getD i [])) from
      (formatChars_parseTok _ _ hp).symm]
    rw [formatChars_drop9]

/-- Witness for C9 at the specification's worked example. -/
theorem claim_C9_witness :
    shiftICS "20240101T090000 ... 20240102T100000".data "20250310".data ['A']
        = Except.ok "20250310T090000 ... 20250311T100000".data ∧
    ∃ d : Int,
      deltaOf "20240101T090000 ... 20240102T100000".data "20250310".data ['A'] = some d ∧
      d % 86400 = 0 ∧
      (findAll "20250310T090000 ... 20250311T100000".data).length =
        (findAll "20240101T090000 ... 20240102T100000".data).length ∧
      ∀ i, i < (findAll "20240101T090000 ... 20240102T100000".data).length →
        ((findAll "20250310T090000 ... 20250311T100000".data).getD i []).drop 9 =
          ((findAll "20240101T090000 ... 20240102T100000".data).getD i []).drop 9 :=
  ⟨rfl, claim_C9 "20240101T090000 ... 20240102T100000".data "20250310".data ['A']
    "20250310T090000 ... 20250311T100000".data rfl⟩

/-- Claim C6: frame condition — the output has the same length as the input
and is the input's decomposition reassembled with only the matched tokens
replaced (each replacement again a 15-character token), every character
outside the tokens unchanged in place. -/
theorem claim_C6 (doc ts wt out : List Char) (h : shiftICS doc ts wt = Except.ok out) :
    ∃ d : Int, deltaOf doc ts wt = some d ∧
      out.length = doc.length ∧
      renderWith (fun t => t) (splitTokens doc) = doc ∧
      out = renderWith (exceptTotal (shiftDate d)) (splitTokens doc) ∧
      ∀ tok ∈ findAll doc, isToken (exceptTotal (shiftDate d) tok) = true := by
  obtain ⟨dates, e, t0, d, hdd, hm, hty, hdval, hdelta, hdates, hptok, hrange, hout, hfa, hdout⟩ :=
    shiftICS_ok_struct doc ts wt out h
  refine ⟨d, hdelta, ?_, renderWith_id doc, hout, ?_⟩
  · rw [hout]
    exact length_renderWith _ (tokPres_shiftTot d) doc
  · intro tok htok
    exact tokPres_shiftTot d tok (mem_findAll_isToken doc tok htok)

/-- Witness for C6 at the specification's worked example. -/
theorem claim_C6_witness :
    shiftICS "20240101T090000 ... 20240102T100000".data "20250310".data ['A']
        = Except.ok "20250310T090000 ... 20250311T100000".data ∧
    ∃ d : Int,
      deltaOf "20240101T090000 ... 20240102T100000".data "20250310".data ['A'] = some d ∧
      ("20250310T090000 ... 20250311T100000".data).length =
        ("20240101T090000 ... 20240102T100000".data).length ∧
      renderWith (fun t => t) (splitTokens "20240101T090000 ... 20240102T100000".data) =
        "20240101T090000 ... 20240102T100000".data ∧
      "20250310T090000 ... 20250311T100000".data =
        renderWith (exceptTotal (shiftDate d))
          (splitTokens "20240101T090000 ... 20240102T100000".data) ∧
      ∀ tok ∈ findAll "20240101T090000 ... 20240102T100000".data,
        isToken (exceptTotal (shiftDate d) tok) = true :=
  ⟨rfl, claim_C6 "20240101T090000 ... 20240102T100000".data "20250310".data ['A']
    "20250310T090000 ... 20250311T100000".data rfl⟩

/-- Claim C1: round trip — after a successful shift, shifting the result back
with the original earliest timestamp's date as the target (week A, the same
time-of-day anchoring) reproduces the original document byte for byte. -/
theorem claim_C1 (doc ts wt out : List Char) (e : Nat)
    (h : shiftICS doc ts wt = Except.ok out) (he : earliestOf doc = some e) :
    shiftICS out (encodeYmd (e / 86400)) ['A'] = Except.ok doc := by
  obtain ⟨dates, e', t0, d, hdd, hm, hty, hdval, hdelta, hdates, hptok, hrange, hout, hfa, hdout⟩ :=
    shiftICS_ok_struct doc ts wt out h
  have hee : e' = e := by
    simp only [earliestOf, hdd] at he
    rw [hm] at he
    injection he
  rw [hee] at hm hdval
  have hemem : e ∈ dates := listMin_mem dates e hm
  have hemax : e ≤ maxSec := by
    obtain ⟨tok, htok, hval⟩ := List.mem_map.mp (hdates ▸ hemem)
    have := (parseTok_isToken tok (parseVal tok) (hptok tok htok)).2
    omega
  have heday : e / 86400 ≤ maxDay := by
    simp only [maxSec] at hemax
    simp only [maxDay]
    omega
  have hdays : d % 86400 = 0 := by
    rw [hdval]
    omega
  have hre := hrange e hemem
  have hmono : ∀ a b : Nat, a ≤ b → shiftVal d a ≤ shiftVal d b := by
    intro a b hab
    rw [shiftVal, shiftVal]
    omega
  have hback_min : listMin (dates.map (shiftVal d)) = some (shiftVal d e) := by
    rw [listMin_map (shiftVal d) hmono dates, hm]
    rfl
  have hback_ty : parseYmd (encodeYmd (e / 86400)) = some (e / 86400) :=
    parseYmd_encodeYmd (e / 86400) heday
  have hback_delta : ((86400 * (e / 86400 + weekOffset ['A']) + shiftVal d e % 86400 : Nat)
      : Int) - (shiftVal d e : Int) = -d := by
    rw [show weekOffset ['A'] = 0 from rfl, shiftVal]
    omega
  have hgback : ∀ tok ∈ findAll doc,
      shiftDate (-d) (exceptTotal (shiftDate d) tok) = Except.ok tok := by
    intro tok htok
    have hp := hptok tok htok
    have hr := hrange (parseVal tok) (hdates ▸ List.mem_map_of_mem parseVal htok)
    have hpmax : parseVal tok ≤ maxSec := (parseTok_isToken tok _ hp).2
    rw [show exceptTotal (shiftDate d) tok = formatChars (shiftVal d (parseVal tok)) from by
      simp only [exceptTotal, shiftDate_ok_of d tok (parseVal tok) hp hr.1 hr.2]
      rfl]
    have hp3 : parseTok (formatChars (shiftVal d (parseVal tok)))
        = some (shiftVal d (parseVal tok)) :=
      parseTok_formatChars _ (by rw [shiftVal]; omega)
    rw [shiftDate_ok_of (-d) _ (shiftVal d (parseVal tok)) hp3 (by rw [shiftVal]; omega)
      (by rw [shiftVal]; omega)]
    congr 1
    rw [show ((shiftVal d (parseVal tok) : Int) + -d).toNat = parseVal tok from by
      rw [shiftVal]
      omega]
    exact formatChars_parseTok tok (parseVal tok) hp
  simp only [shiftICS, hdout, hback_min, hback_ty]
  rw [hback_delta]
  have hall2 : ∀ tok2 ∈ findAll out, ∃ r, shiftDate (-d) tok2 = Except.ok r := by
    rw [hfa]
    intro tok2 htok2
    obtain ⟨tok, htok, hval⟩ := List.mem_map.mp htok2
    exact ⟨tok, hval ▸ hgback tok htok⟩
  rw [hout] at hall2 ⊢
  rw [subExcept_ok_of_forall (shiftDate (-d)) _ hall2]
  congr 1
  rw [splitTokens_renderWith _ (tokPres_shiftTot d) doc, renderWith_map]
  have hcong : renderWith (fun t => exceptTotal (shiftDate (-d)) (exceptTotal (shiftDate d) t))
      (splitTokens doc) = renderWith (fun t => t) (splitTokens doc) := by
    refine renderWith_congr _ _ _ (fun t ht => ?_)
    have hx2 := hgback t (mem_splitTokens_mem_findAll doc t ht)
    generalize hgen : exceptTotal (shiftDate d) t = x at hx2 ⊢
    simp only [exceptTotal, hx2]
  rw [hcong, renderWith_id]

/-- Witness for C1 at the specification's worked example. -/
theorem claim_C1_witness :
    shiftICS "20240101T090000 ... 20240102T100000".data "20250310".data ['A']
        = Except.ok "20250310T090000 ... 20250311T100000".data ∧
    earliestOf "20240101T090000 ... 20240102T100000".data = some 63839696400 ∧
    shiftICS "20250310T090000 ... 20250311T100000".data (encodeYmd (63839696400 / 86400)) ['A']
        = Except.ok "20240101T090000 ... 20240102T100000".data :=
  ⟨rfl, rfl, claim_C1 "20240101T090000 ... 20240102T100000".data "20250310".data ['A']
    "20250310T090000 ... 20250311T100000".data 63839696400 rfl rfl⟩
